import Mathlib

/-!
Verification development for the PAGI core library (`src/lib.rs`, `src/facts.rs`).

The Rust code is shallowly embedded: the sled-backed fact store becomes an
explicit state (a key-sorted association list plus the monotone id counter),
`serde_json` values become an executable `Json` inductive with a parser and a
compact printer (objects are kept key-sorted, mirroring serde's default
`BTreeMap` representation), and fallible operations return `Except`/`Option`.
Machine integers (`u64` timestamps, sled ids) are `Nat` with explicit bounds
where overflow matters.  Rust `String` ordering (byte-wise lexicographic on
UTF-8) coincides with `Char` codepoint lexicographic order, which is what the
embedding uses.  ASCII-only approximations of Unicode case folding and
whitespace are used, matching the ASCII data all claims are about.
-/

namespace PagiCore

/-- Whitespace test on a `Char`, by codepoint (ASCII subset of Rust's
`char::is_whitespace`: space, tab, LF, VT, FF, CR). -/
def isWs (c : Char) : Bool :=
  c.toNat = 32 || c.toNat = 9 || c.toNat = 10 || c.toNat = 11 || c.toNat = 12 || c.toNat = 13

/-- ASCII lower-casing of one character (model of Rust `to_lowercase`). -/
def lowerChar (c : Char) : Char :=
  if 65 ≤ c.toNat ∧ c.toNat ≤ 90 then Char.ofNat (c.toNat + 32) else c

/-- Model of Rust `str::starts_with` on character lists. -/
def startsWith : List Char → List Char → Bool
  | _, [] => true
  | [], _ :: _ => false
  | x :: xs, y :: ys => x = y && startsWith xs ys

/-- Model of Rust `str::contains` (substring containment) on character lists. -/
def containsL : List Char → List Char → Bool
  | [], pat => startsWith [] pat
  | h :: t, pat => startsWith (h :: t) pat || containsL t pat

/-- Drop leading whitespace (one side of Rust `str::trim`). -/
def dropWs (l : List Char) : List Char := l.dropWhile isWs

/-- Model of Rust `str::trim` on character lists. -/
def trimL (l : List Char) : List Char := ((dropWs l).reverse.dropWhile isWs).reverse

/-- Model of Rust `str::to_lowercase` (ASCII). -/
def toLowerStr (s : String) : String := ⟨s.data.map lowerChar⟩

/-- Model of Rust `str::trim`. -/
def trimStr (s : String) : String := ⟨trimL s.data⟩

/-- Model of Rust `str::contains` with a string pattern. -/
def containsStr (s pat : String) : Bool := containsL s.data pat.data

/-- Strict lexicographic order on character lists by codepoint: this is the
byte order sled uses on the UTF-8 keys the store writes. -/
def lexLt : List Char → List Char → Bool
  | [], [] => false
  | [], _ :: _ => true
  | _ :: _, [] => false
  | x :: xs, y :: ys => if x < y then true else if y < x then false else lexLt xs ys

theorem lexLt_irrefl (l : List Char) : lexLt l l = false := by
  induction l with
  | nil => rfl
  | cons a as ih => simp [lexLt, ih]

theorem lexLt_trichotomy (l m : List Char) :
    lexLt l m = true ∨ l = m ∨ lexLt m l = true := by
  induction l generalizing m with
  | nil => cases m <;> simp [lexLt]
  | cons a as ih =>
    cases m with
    | nil => simp [lexLt]
    | cons b bs =>
      rcases lt_trichotomy a b with hab | hab | hab
      · exact Or.inl (by simp [lexLt, hab])
      · subst hab
        rcases ih bs with h | h | h
        · exact Or.inl (by simp [lexLt, h])
        · exact Or.inr (Or.inl (by rw [h]))
        · exact Or.inr (Or.inr (by simp [lexLt, h]))
      · exact Or.inr (Or.inr (by simp [lexLt, hab]))

theorem lexLt_asymm {l m : List Char} (h : lexLt l m = true) : lexLt m l = false := by
  induction l generalizing m with
  | nil =>
    cases m with
    | nil => simp [lexLt] at h
    | cons b bs => simp [lexLt]
  | cons a as ih =>
    cases m with
    | nil => simp [lexLt] at h
    | cons b bs =>
      by_cases hab : a < b
      · simp [lexLt, hab, asymm hab, ne_of_gt hab]
      · by_cases hba : b < a
        · simp [lexLt, hab, hba] at h
        · have : a = b := le_antisymm (not_lt.mp hba) (not_lt.mp hab)
          subst this
          simp [lexLt, hab] at h ⊢
          exact ih h

theorem lexLt_trans {l m n : List Char} (h₁ : lexLt l m = true) (h₂ : lexLt m n = true) :
    lexLt l n = true := by
  induction l generalizing m n with
  | nil =>
    cases m with
    | nil => simp [lexLt] at h₁
    | cons b bs => cases n with
      | nil => simp [lexLt] at h₂
      | cons c cs => simp [lexLt]
  | cons a as ih =>
    cases m with
    | nil => simp [lexLt] at h₁
    | cons b bs =>
      cases n with
      | nil => simp [lexLt] at h₂
      | cons c cs =>
        by_cases hab : a < b <;> by_cases hbc : b < c
        · simp [lexLt, lt_trans hab hbc]
        · have hbc' : b = c := by
            by_cases h : c < b
            · simp [lexLt, hbc, h] at h₂
            · exact le_antisymm (not_lt.mp h) (not_lt.mp hbc)
          subst hbc'
          simp [lexLt, hab]
        · have hab' : a = b := by
            by_cases h : b < a
            · simp [lexLt, hab, h] at h₁
            · exact le_antisymm (not_lt.mp h) (not_lt.mp hab)
          subst hab'
          simp [lexLt, hbc]
        · have hab' : a = b := by
            by_cases h : b < a
            · simp [lexLt, hab, h] at h₁
            · exact le_antisymm (not_lt.mp h) (not_lt.mp hab)
          have hbc' : b = c := by
            by_cases h : c < b
            · simp [lexLt, hbc, h] at h₂
            · exact le_antisymm (not_lt.mp h) (not_lt.mp hbc)
          subst hab'; subst hbc'
          simp [lexLt] at h₁ h₂ ⊢
          exact ih h₁ h₂

theorem lexLt_append_same {a b : List Char} (p : List Char) :
    lexLt (p ++ a) (p ++ b) = lexLt a b := by
  induction p with
  | nil => rfl
  | cons c cs ih => simp [lexLt, ih]

theorem lexLt_append_of_lt {p q : List Char} (hlen : p.length = q.length)
    (h : lexLt p q = true) (a b : List Char) : lexLt (p ++ a) (q ++ b) = true := by
  induction p generalizing q with
  | nil =>
    cases q with
    | nil => simp [lexLt] at h
    | cons y ys => simp at hlen
  | cons x xs ih =>
    cases q with
    | nil => simp at hlen
    | cons y ys =>
      simp at hlen
      by_cases hxy : x < y
      · simp [lexLt, hxy]
      · by_cases hyx : y < x
        · simp [lexLt, hxy, hyx] at h
        · have : x = y := le_antisymm (not_lt.mp hyx) (not_lt.mp hxy)
          subst this
          simp [lexLt, hxy] at h ⊢
          exact ih hlen h

/-! ### Decimal digit strings and the sled key format -/

/-- Big-endian value of a list of decimal digits (how a digit string reads as
a number). -/
def digitsVal (l : List Nat) : Nat := l.foldl (fun acc d => 10 * acc + d) 0

theorem foldl_digits_acc (l : List Nat) (a : Nat) :
    l.foldl (fun acc d => 10 * acc + d) a = a * 10 ^ l.length + digitsVal l := by
  induction l generalizing a with
  | nil => simp [digitsVal]
  | cons d ds ih =>
    simp only [List.foldl_cons, List.length_cons, digitsVal]
    rw [ih (10 * a + d), ih (10 * 0 + d)]
    ring

theorem digitsVal_cons (d : Nat) (l : List Nat) :
    digitsVal (d :: l) = d * 10 ^ l.length + digitsVal l := by
  simp only [digitsVal, List.foldl_cons]
  simpa using foldl_digits_acc l d

theorem digitsVal_lt (l : List Nat) (h : ∀ d ∈ l, d < 10) :
    digitsVal l < 10 ^ l.length := by
  induction l with
  | nil => simp [digitsVal]
  | cons d ds ih =>
    rw [digitsVal_cons]
    have hd : d < 10 := h d (by simp)
    have hds : digitsVal ds < 10 ^ ds.length := ih fun x hx => h x (by simp [hx])
    have : d * 10 ^ ds.length + digitsVal ds < (d + 1) * 10 ^ ds.length := by
      nlinarith
    calc d * 10 ^ ds.length + digitsVal ds < (d + 1) * 10 ^ ds.length := this
      _ ≤ 10 * 10 ^ ds.length := by
          have : d + 1 ≤ 10 := hd
          exact Nat.mul_le_mul_right _ this
      _ = 10 ^ (ds.length + 1) := by ring
      _ = 10 ^ (d :: ds).length := by simp

theorem digitsVal_replicate_zero_append (k : Nat) (l : List Nat) :
    digitsVal (List.replicate k 0 ++ l) = digitsVal l := by
  induction k with
  | zero => simp
  | succ n ih =>
    simp only [List.replicate_succ, List.cons_append, digitsVal, List.foldl_cons]
    simpa [digitsVal] using ih

/-- Strict lexicographic order on decimal digit lists. -/
def lexNatLt : List Nat → List Nat → Bool
  | [], [] => false
  | [], _ :: _ => true
  | _ :: _, [] => false
  | x :: xs, y :: ys => if x < y then true else if y < x then false else lexNatLt xs ys

theorem lexNatLt_iff_val_lt (l m : List Nat) (hlen : l.length = m.length)
    (hl : ∀ d ∈ l, d < 10) (hm : ∀ d ∈ m, d < 10) :
    lexNatLt l m = true ↔ digitsVal l < digitsVal m := by
  induction l generalizing m with
  | nil =>
    cases m with
    | nil => simp [lexNatLt, digitsVal]
    | cons y ys => simp at hlen
  | cons x xs ih =>
    cases m with
    | nil => simp at hlen
    | cons y ys =>
      simp only [List.length_cons, Nat.succ.injEq] at hlen
      rw [digitsVal_cons, digitsVal_cons, hlen]
      have hxsv : digitsVal xs < 10 ^ ys.length := by
        rw [← hlen]; exact digitsVal_lt xs fun d hd => hl d (by simp [hd])
      have hysv : digitsVal ys < 10 ^ ys.length := digitsVal_lt ys fun d hd => hm d (by simp [hd])
      by_cases hxy : x < y
      · simp only [lexNatLt, if_pos hxy, true_iff]
        have : (x + 1) * 10 ^ ys.length ≤ y * 10 ^ ys.length :=
          Nat.mul_le_mul_right _ hxy
        nlinarith
      · by_cases hyx : y < x
        · simp only [lexNatLt, if_neg hxy, if_pos hyx]
          constructor
          · intro h; exact absurd h (by simp)
          · intro h
            have : (y + 1) * 10 ^ ys.length ≤ x * 10 ^ ys.length :=
              Nat.mul_le_mul_right _ hyx
            nlinarith
        · have hxyeq : x = y := le_antisymm (not_lt.mp hyx) (not_lt.mp hxy)
          subst hxyeq
          have h1 : lexNatLt (x :: xs) (x :: ys) = lexNatLt xs ys := by
            simp [lexNatLt]
          rw [h1, ih ys hlen (fun d hd => hl d (by simp [hd])) (fun d hd => hm d (by simp [hd]))]
          omega

/-- Little-endian base-10 digits, by structural recursion on a fuel bound
(so that it reduces inside the kernel); agrees with `Nat.digits 10` whenever
the fuel is at least the number. -/
def digitsF : Nat → Nat → List Nat
  | _, 0 => []
  | 0, _ + 1 => []
  | fuel + 1, n + 1 => ((n + 1) % 10) :: digitsF fuel ((n + 1) / 10)

theorem digitsF_eq (fuel n : Nat) (h : n ≤ fuel) : digitsF fuel n = Nat.digits 10 n := by
  induction fuel generalizing n with
  | zero =>
    have : n = 0 := Nat.le_zero.mp h
    subst this
    simp [digitsF]
  | succ fuel ih =>
    cases n with
    | zero => simp [digitsF]
    | succ m =>
      rw [digitsF]
      have hdiv : (m + 1) / 10 ≤ fuel := by
        have := Nat.div_lt_self (Nat.succ_pos m) (by norm_num : 1 < 10)
        omega
      rw [ih _ hdiv, Nat.digits_def' (by norm_num : 1 < 10) (Nat.succ_pos m)]

/-- Decimal rendering of a natural number, as Rust's `{}` / Lean's `toString`
produce it (most-significant digit first, `"0"` for zero). -/
def natRepr (n : Nat) : List Char :=
  if n = 0 then ['0'] else ((digitsF n n).reverse).map Nat.digitChar

theorem natRepr_eq (n : Nat) :
    natRepr n = if n = 0 then ['0'] else ((Nat.digits 10 n).reverse).map Nat.digitChar := by
  rw [natRepr, digitsF_eq n n le_rfl]

/-- The zero-padded 20-character timestamp prefix of a store key
(Rust `format!("{:020}", ts)` for `ts` of at most 20 digits). -/
def keyPad (n : Nat) : List Char :=
  List.replicate (20 - (natRepr n).length) '0' ++ natRepr n

/-- The digit list (most-significant first) underlying `keyPad`. -/
def padDigits (n : Nat) : List Nat :=
  List.replicate (20 - (Nat.digits 10 n).length) 0 ++ (Nat.digits 10 n).reverse

/-- The sled key `format!("{:020}_{id}", fact.timestamp)` from
`record_fact_unchecked`. -/
def makeKey (ts id : Nat) : List Char := keyPad ts ++ '_' :: natRepr id

def charIsDigit (c : Char) : Bool := 48 ≤ c.toNat && c.toNat ≤ 57

def charToDigit (c : Char) : Nat := c.toNat - 48

/-- Model of Rust `str::parse::<u64>()` (optional leading `+`, all decimal
digits, value must fit in 64 bits). -/
def parseU64 (l : List Char) : Option Nat :=
  let l' := if l.head? = some '+' then l.tail else l
  if l' = [] then none
  else if l'.all charIsDigit then
    let v := digitsVal (l'.map charToDigit)
    if v < 2 ^ 64 then some v else none
  else none

/-- Model of Rust `str::split_once('_')` (split at the first underscore). -/
def splitOnceUnd : List Char → Option (List Char × List Char)
  | [] => none
  | c :: rest =>
    if c = '_' then some ([], rest)
    else
      match splitOnceUnd rest with
      | some (a, b) => some (c :: a, b)
      | none => none

/-- The key-parsing step of `retrieve_facts_by_timestamp_unchecked`:
`key_str.split_once('_')` then `ts_str.parse::<u64>()`. -/
def parseKeyTs (k : List Char) : Option Nat :=
  match splitOnceUnd k with
  | some (tsStr, _) => parseU64 tsStr
  | none => none

theorem digitChar_lt_iff :
    ∀ d, d < 10 → ∀ e, e < 10 → (Nat.digitChar d < Nat.digitChar e ↔ d < e) := by
  decide

theorem charToDigit_digitChar : ∀ d, d < 10 → charToDigit (Nat.digitChar d) = d := by
  decide

theorem charIsDigit_digitChar : ∀ d, d < 10 → charIsDigit (Nat.digitChar d) = true := by
  decide

theorem digitChar_ne_und : ∀ d, d < 10 → Nat.digitChar d ≠ '_' := by
  decide

theorem digitChar_ne_plus : ∀ d, d < 10 → Nat.digitChar d ≠ '+' := by
  decide

theorem digits_len_le_20 {n : Nat} (h : n < 10 ^ 20) : (Nat.digits 10 n).length ≤ 20 := by
  by_cases hn : n = 0
  · subst hn; simp
  · by_contra hlen
    have h21 : 21 ≤ (Nat.digits 10 n).length := by omega
    have hle : (10 : Nat) ^ (Nat.digits 10 n).length ≤ 10 * n :=
      Nat.base_pow_length_digits_le 10 n (by norm_num) hn
    have : (10 : Nat) ^ 21 ≤ 10 ^ (Nat.digits 10 n).length :=
      Nat.pow_le_pow_right (by norm_num) h21
    have : (10 : Nat) ^ 21 ≤ 10 * n := le_trans this hle
    have : (10 : Nat) ^ 20 ≤ n := by
      have h10 : (10 : Nat) ^ 21 = 10 * 10 ^ 20 := by ring
      omega
    omega

theorem padDigits_lt (n : Nat) : ∀ d ∈ padDigits n, d < 10 := by
  intro d hd
  rcases List.mem_append.mp hd with h | h
  · have := List.eq_of_mem_replicate h
    omega
  · exact Nat.digits_lt_base (by norm_num) (List.mem_reverse.mp h)

theorem padDigits_length {n : Nat} (h : n < 10 ^ 20) : (padDigits n).length = 20 := by
  have := digits_len_le_20 h
  simp [padDigits]
  omega

theorem digitsVal_reverse_digits (n : Nat) :
    digitsVal ((Nat.digits 10 n).reverse) = n := by
  have hfold : ∀ l : List Nat,
      l.reverse.foldl (fun acc d => 10 * acc + d) 0 = Nat.ofDigits 10 l := by
    intro l
    rw [List.foldl_reverse]
    induction l with
    | nil => simp [Nat.ofDigits]
    | cons d ds ih =>
      rw [List.foldr_cons, ih, Nat.ofDigits_cons]
      ring
  have := hfold (Nat.digits 10 n)
  simpa [digitsVal, Nat.ofDigits_digits] using this

theorem digitsVal_padDigits {n : Nat} : digitsVal (padDigits n) = n := by
  rw [padDigits, digitsVal_replicate_zero_append, digitsVal_reverse_digits]

theorem keyPad_eq_map (n : Nat) : keyPad n = (padDigits n).map Nat.digitChar := by
  have h0 : Nat.digitChar 0 = '0' := rfl
  by_cases hn : n = 0
  · subst hn
    have h1 : natRepr 0 = ['0'] := rfl
    rw [keyPad, padDigits, h1, Nat.digits_zero, List.map_append, List.map_replicate, h0]
    simp
  · have hrepr : natRepr n = ((Nat.digits 10 n).reverse).map Nat.digitChar := by
      rw [natRepr_eq]; simp [hn]
    rw [keyPad, padDigits, hrepr, List.map_append, List.map_replicate, h0]
    simp

theorem keyPad_length {n : Nat} (h : n < 10 ^ 20) : (keyPad n).length = 20 := by
  rw [keyPad_eq_map, List.length_map, padDigits_length h]

theorem lexLt_map_digitChar (l m : List Nat) (hl : ∀ d ∈ l, d < 10)
    (hm : ∀ d ∈ m, d < 10) :
    lexLt (l.map Nat.digitChar) (m.map Nat.digitChar) = lexNatLt l m := by
  induction l generalizing m with
  | nil => cases m <;> simp [lexLt, lexNatLt]
  | cons x xs ih =>
    cases m with
    | nil => simp [lexLt, lexNatLt]
    | cons y ys =>
      have hx : x < 10 := hl x (by simp)
      have hy : y < 10 := hm y (by simp)
      have hiff := digitChar_lt_iff x hx y hy
      have hiff' := digitChar_lt_iff y hy x hx
      simp only [List.map_cons, lexLt, lexNatLt]
      by_cases hxy : x < y
      · rw [if_pos (hiff.mpr hxy), if_pos hxy]
      · rw [if_neg (fun hc => hxy (hiff.mp hc)), if_neg hxy]
        by_cases hyx : y < x
        · rw [if_pos (hiff'.mpr hyx), if_pos hyx]
        · rw [if_neg (fun hc => hyx (hiff'.mp hc)), if_neg hyx]
          exact ih ys (fun d hd => hl d (by simp [hd])) (fun d hd => hm d (by simp [hd]))

theorem keyPad_lexLt {a b : Nat} (hab : a < b) (hb : b < 10 ^ 20) :
    lexLt (keyPad a) (keyPad b) = true := by
  have ha : a < 10 ^ 20 := lt_trans hab hb
  rw [keyPad_eq_map, keyPad_eq_map,
    lexLt_map_digitChar _ _ (padDigits_lt a) (padDigits_lt b),
    lexNatLt_iff_val_lt _ _ (by rw [padDigits_length ha, padDigits_length hb])
      (padDigits_lt a) (padDigits_lt b),
    digitsVal_padDigits, digitsVal_padDigits]
  exact hab

theorem makeKey_lexLt {ts1 ts2 : Nat} (id1 id2 : Nat) (h : ts1 < ts2)
    (h2 : ts2 < 10 ^ 20) : lexLt (makeKey ts1 id1) (makeKey ts2 id2) = true := by
  have h1 : ts1 < 10 ^ 20 := lt_trans h h2
  exact lexLt_append_of_lt (by rw [keyPad_length h1, keyPad_length h2])
    (keyPad_lexLt h h2) _ _

theorem natRepr_mem {n : Nat} {c : Char} (hc : c ∈ natRepr n) :
    ∃ d, d < 10 ∧ c = Nat.digitChar d := by
  rw [natRepr_eq] at hc
  by_cases hn : n = 0
  · subst hn
    simp at hc
    exact ⟨0, by norm_num, hc⟩
  · simp only [if_neg hn, List.mem_map, List.mem_reverse] at hc
    obtain ⟨d, hd, hcd⟩ := hc
    exact ⟨d, Nat.digits_lt_base (by norm_num) hd, hcd.symm⟩

theorem keyPad_mem {n : Nat} {c : Char} (hc : c ∈ keyPad n) :
    ∃ d, d < 10 ∧ c = Nat.digitChar d := by
  rw [keyPad_eq_map] at hc
  obtain ⟨d, hd, hcd⟩ := List.mem_map.mp hc
  exact ⟨d, padDigits_lt n d hd, hcd.symm⟩

theorem natRepr_val (n : Nat) : digitsVal ((natRepr n).map charToDigit) = n := by
  rw [natRepr_eq]
  by_cases hn : n = 0
  · subst hn; rfl
  · simp only [if_neg hn, List.map_map]
    have hcong : ((Nat.digits 10 n).reverse).map (charToDigit ∘ Nat.digitChar)
        = ((Nat.digits 10 n).reverse).map id := by
      apply List.map_congr_left
      intro d hd
      have : d < 10 := Nat.digits_lt_base (by norm_num) (List.mem_reverse.mp hd)
      simp [charToDigit_digitChar d this]
    rw [hcong, List.map_id, digitsVal_reverse_digits]

theorem natRepr_inj {a b : Nat} (h : natRepr a = natRepr b) : a = b := by
  have := natRepr_val a
  rw [h, natRepr_val b] at this
  exact this.symm

theorem makeKey_inj_id {ts1 ts2 id1 id2 : Nat} (h1 : ts1 < 10 ^ 20)
    (h2 : ts2 < 10 ^ 20) (h : makeKey ts1 id1 = makeKey ts2 id2) : id1 = id2 := by
  have hlen : (keyPad ts1).length = (keyPad ts2).length := by
    rw [keyPad_length h1, keyPad_length h2]
  obtain ⟨-, htail⟩ := List.append_inj h hlen
  exact natRepr_inj (by injection htail)

theorem splitOnceUnd_append {a : List Char} (b : List Char) (ha : '_' ∉ a) :
    splitOnceUnd (a ++ '_' :: b) = some (a, b) := by
  induction a with
  | nil => simp [splitOnceUnd]
  | cons c cs ih =>
    have hc : c ≠ '_' := fun hh => ha (hh ▸ List.mem_cons_self c cs)
    have hcs : '_' ∉ cs := fun hh => ha (List.mem_cons_of_mem c hh)
    simp [splitOnceUnd, hc, ih hcs]

theorem parseU64_keyPad {ts : Nat} (h : ts < 2 ^ 64) : parseU64 (keyPad ts) = some ts := by
  have h20 : ts < 10 ^ 20 := lt_of_lt_of_le h (by norm_num)
  have hne : keyPad ts ≠ [] := by
    intro hc
    have := keyPad_length h20
    rw [hc] at this
    simp at this
  have hhead : (keyPad ts).head? ≠ some '+' := by
    cases hk : keyPad ts with
    | nil => exact absurd hk hne
    | cons c cs =>
      have hc : c ∈ keyPad ts := by rw [hk]; simp
      obtain ⟨d, hd, hcd⟩ := keyPad_mem hc
      simp only [hk, List.head?]
      intro hcon
      exact digitChar_ne_plus d hd (by injection hcon with hh; rw [← hcd, hh])
  have hall : (keyPad ts).all charIsDigit = true := by
    rw [List.all_eq_true]
    intro c hc
    obtain ⟨d, hd, hcd⟩ := keyPad_mem hc
    rw [hcd]
    exact charIsDigit_digitChar d hd
  have hval : digitsVal ((keyPad ts).map charToDigit) = ts := by
    rw [keyPad_eq_map, List.map_map]
    have hcong : (padDigits ts).map (charToDigit ∘ Nat.digitChar)
        = (padDigits ts).map id := by
      apply List.map_congr_left
      intro d hd
      simp [charToDigit_digitChar d (padDigits_lt ts d hd)]
    rw [hcong, List.map_id, digitsVal_padDigits]
  rw [parseU64]
  simp only [if_neg hhead, if_neg hne, hall, if_pos rfl, hval, if_pos h]
  simp

theorem parseKeyTs_makeKey {ts : Nat} (id : Nat) (h : ts < 2 ^ 64) :
    parseKeyTs (makeKey ts id) = some ts := by
  have h20 : ts < 10 ^ 20 := lt_of_lt_of_le h (by norm_num)
  have hund : '_' ∉ keyPad ts := by
    intro hc
    obtain ⟨d, hd, hcd⟩ := keyPad_mem hc
    exact digitChar_ne_und d hd hcd.symm
  rw [parseKeyTs, makeKey, splitOnceUnd_append _ hund]
  exact parseU64_keyPad h

/-! ### JSON values (embedding of `serde_json::Value`)

Objects are association lists kept sorted by key, mirroring serde's default
`BTreeMap<String, Value>` (so printing iterates keys in ascending byte order
and duplicate keys overwrite).  Integers are unbounded `Int` (all numbers in
the repository's data are small integers); a number literal with a fraction
or exponent is kept as its lexeme (`floatRaw`), since exact float formatting
is outside the embedding.  Unicode case folding, `\u` surrogate pairs and
float canonicalization are not modeled. -/

inductive Json where
  | null : Json
  | bool : Bool → Json
  | num : Int → Json
  | str : String → Json
  | floatRaw : String → Json
  | arr : List Json → Json
  | obj : List (String × Json) → Json

/-- serde's string escaping: `"`, `\`, control characters via the usual
short escapes, remaining controls as `\u00XX` (lowercase hex). -/
def escapeChar (c : Char) : List Char :=
  if c = '"' then ['\\', '"']
  else if c = '\\' then ['\\', '\\']
  else if c.toNat = 8 then ['\\', 'b']
  else if c.toNat = 9 then ['\\', 't']
  else if c.toNat = 10 then ['\\', 'n']
  else if c.toNat = 12 then ['\\', 'f']
  else if c.toNat = 13 then ['\\', 'r']
  else if c.toNat < 32 then
    ['\\', 'u', '0', '0', Nat.digitChar (c.toNat / 16), Nat.digitChar (c.toNat % 16)]
  else [c]

def escapeStr (s : String) : List Char :=
  '"' :: (s.data.flatMap escapeChar) ++ ['"']

def intRepr (n : Int) : List Char :=
  if n < 0 then '-' :: natRepr n.natAbs else natRepr n.natAbs

/-- `BTreeMap::insert`: insert into the sorted association list, overwriting
an existing binding of the same key (Rust `String` order is byte-wise
lexicographic, i.e. `lexLt` on the character data). -/
def objInsert (k : String) (v : Json) : List (String × Json) → List (String × Json)
  | [] => [(k, v)]
  | (k', v') :: rest =>
    if lexLt k.data k'.data then (k, v) :: (k', v') :: rest
    else if k = k' then (k, v) :: rest
    else (k', v') :: objInsert k v rest

/-- Build an object from bindings in order (later bindings overwrite). -/
def mkObj (l : List (String × Json)) : Json :=
  Json.obj (l.foldl (fun acc kv => objInsert kv.1 kv.2 acc) [])

mutual

/-- Compact printing, as `serde_json::Value::to_string` produces it. -/
def printJson : Json → List Char
  | .null => "null".data
  | .bool b => (cond b "true" "false").data
  | .num n => intRepr n
  | .str s => escapeStr s
  | .floatRaw s => s.data
  | .arr xs => '[' :: printJsonList xs ++ [']']
  | .obj kvs => '{' :: printJsonObj kvs ++ ['}']

def printJsonList : List Json → List Char
  | [] => []
  | [x] => printJson x
  | x :: y :: rest => printJson x ++ ',' :: printJsonList (y :: rest)

def printJsonObj : List (String × Json) → List Char
  | [] => []
  | [(k, v)] => escapeStr k ++ ':' :: printJson v
  | (k, v) :: m :: rest => escapeStr k ++ ':' :: printJson v ++ ',' :: printJsonObj (m :: rest)

end

/-- `Value::to_string()`. -/
def Json.print (j : Json) : String := ⟨printJson j⟩

/-- `Value::get(key)` followed by nothing: key lookup, `none` on non-objects. -/
def jsonGet (j : Json) (key : String) : Option Json :=
  match j with
  | .obj kvs => lookupGo kvs key
  | _ => none
where lookupGo : List (String × Json) → String → Option Json
  | [], _ => none
  | (k, v) :: rest, key => if k = key then some v else lookupGo rest key

/-! ### JSON parsing (embedding of `serde_json::from_str`) -/

def skipWsJ (l : List Char) : List Char :=
  l.dropWhile (fun c => c = ' ' || c = '\t' || c = '\n' || c = '\r')

def hexVal (c : Char) : Option Nat :=
  if 48 ≤ c.toNat ∧ c.toNat ≤ 57 then some (c.toNat - 48)
  else if 97 ≤ c.toNat ∧ c.toNat ≤ 102 then some (c.toNat - 87)
  else if 65 ≤ c.toNat ∧ c.toNat ≤ 70 then some (c.toNat - 55)
  else none

/-- Parse the body of a string literal (after the opening quote), returning
the unescaped characters and the input that follows the closing quote. -/
def parseStrBody : List Char → Option (List Char × List Char)
  | [] => none
  | c :: rest =>
    if c = '"' then some ([], rest)
    else if c = '\\' then
      match rest with
      | [] => none
      | e :: rest2 =>
        if e = '"' then (parseStrBody rest2).map (fun p => ('"' :: p.1, p.2))
        else if e = '\\' then (parseStrBody rest2).map (fun p => ('\\' :: p.1, p.2))
        else if e = '/' then (parseStrBody rest2).map (fun p => ('/' :: p.1, p.2))
        else if e = 'b' then (parseStrBody rest2).map (fun p => (Char.ofNat 8 :: p.1, p.2))
        else if e = 'f' then (parseStrBody rest2).map (fun p => (Char.ofNat 12 :: p.1, p.2))
        else if e = 'n' then (parseStrBody rest2).map (fun p => ('\n' :: p.1, p.2))
        else if e = 'r' then (parseStrBody rest2).map (fun p => (Char.ofNat 13 :: p.1, p.2))
        else if e = 't' then (parseStrBody rest2).map (fun p => ('\t' :: p.1, p.2))
        else if e = 'u' then
          match rest2 with
          | h1 :: h2 :: h3 :: h4 :: rest3 =>
            match hexVal h1, hexVal h2, hexVal h3, hexVal h4 with
            | some a, some b, some c, some d =>
              let code := ((a * 16 + b) * 16 + c) * 16 + d
              if 0xd800 ≤ code ∧ code < 0xe000 then none
              else (parseStrBody rest3).map (fun p => (Char.ofNat code :: p.1, p.2))
            | _, _, _, _ => none
          | _ => none
        else none
    else if c.toNat < 32 then none
    else (parseStrBody rest).map (fun p => (c :: p.1, p.2))

def parseExpSuffix (l : List Char) : Option (List Char × List Char) :=
  let (sgn, l1) : List Char × List Char :=
    match l with
    | '+' :: r => (['+'], r)
    | '-' :: r => (['-'], r)
    | _ => ([], l)
  let (ds, l2) := List.span charIsDigit l1
  if ds = [] then none else some (sgn ++ ds, l2)

def parseFrac : List Char → Option (List Char × List Char)
  | '.' :: r =>
    let (fs, r2) := List.span charIsDigit r
    if fs = [] then none else some ('.' :: fs, r2)
  | l => some ([], l)

def parseExpOpt : List Char → Option (List Char × List Char)
  | 'e' :: r => (parseExpSuffix r).map (fun p => ('e' :: p.1, p.2))
  | 'E' :: r => (parseExpSuffix r).map (fun p => ('E' :: p.1, p.2))
  | l => some ([], l)

/-- Parse a JSON number (JSON grammar: no leading zeros, optional fraction
and exponent). -/
def parseNum (l : List Char) : Option (Json × List Char) :=
  let neg : Bool := l.head? == some '-'
  let l1 := if neg then l.tail else l
  let (ds, l2) := List.span charIsDigit l1
  if ds = [] then none
  else if ds.head? = some '0' ∧ 1 < ds.length then none
  else
    match parseFrac l2 with
    | none => none
    | some (fracCs, l3) =>
      match parseExpOpt l3 with
      | none => none
      | some (expCs, l4) =>
        if fracCs = [] ∧ expCs = [] then
          let v : Int := Int.ofNat (digitsVal (ds.map charToDigit))
          some (Json.num (if neg then -v else v), l4)
        else
          some (Json.floatRaw ⟨(if neg then ['-'] else []) ++ ds ++ fracCs ++ expCs⟩, l4)

def expectLit (lit : List Char) (l : List Char) : Option (List Char) :=
  if startsWith l lit then some (l.drop lit.length) else none

mutual

def parseVal : Nat → List Char → Option (Json × List Char)
  | 0, _ => none
  | fuel + 1, l =>
    match skipWsJ l with
    | [] => none
    | c :: rest =>
      if c = 'n' then (expectLit ['u', 'l', 'l'] rest).map (fun r => (Json.null, r))
      else if c = 't' then (expectLit ['r', 'u', 'e'] rest).map (fun r => (Json.bool true, r))
      else if c = 'f' then
        (expectLit ['a', 'l', 's', 'e'] rest).map (fun r => (Json.bool false, r))
      else if c = '"' then (parseStrBody rest).map (fun p => (Json.str ⟨p.1⟩, p.2))
      else if c = '[' then
        match skipWsJ rest with
        | ']' :: r2 => some (Json.arr [], r2)
        | r2 => (parseArrElems fuel r2).map (fun p => (Json.arr p.1, p.2))
      else if c = '{' then
        match skipWsJ rest with
        | '}' :: r2 => some (Json.obj [], r2)
        | r2 =>
          (parseObjMembers fuel r2).map (fun p =>
            (Json.obj (p.1.foldl (fun acc kv => objInsert kv.1 kv.2 acc) []), p.2))
      else if c = '-' || charIsDigit c then parseNum (c :: rest)
      else none

def parseArrElems : Nat → List Char → Option (List Json × List Char)
  | 0, _ => none
  | fuel + 1, l =>
    match parseVal fuel l with
    | none => none
    | some (v, r) =>
      match skipWsJ r with
      | ',' :: r2 => (parseArrElems fuel r2).map (fun p => (v :: p.1, p.2))
      | ']' :: r2 => some ([v], r2)
      | _ => none

def parseObjMembers : Nat → List Char → Option (List (String × Json) × List Char)
  | 0, _ => none
  | fuel + 1, l =>
    match skipWsJ l with
    | '"' :: r =>
      match parseStrBody r with
      | none => none
      | some (kcs, r2) =>
        match skipWsJ r2 with
        | ':' :: r3 =>
          match parseVal fuel r3 with
          | none => none
          | some (v, r4) =>
            match skipWsJ r4 with
            | ',' :: r5 => (parseObjMembers fuel r5).map (fun p => ((⟨kcs⟩, v) :: p.1, p.2))
            | '}' :: r5 => some ([(⟨kcs⟩, v)], r5)
            | _ => none
        | _ => none
    | _ => none

end

/-- `serde_json::from_str::<Value>`: parse one value, allow trailing
whitespace, require end of input. -/
def Json.parse (s : String) : Option Json :=
  match parseVal (2 * s.data.length + 8) s.data with
  | some (v, rest) => if skipWsJ rest = [] then some v else none
  | none => none

instance {ε : Type u} {α : Type v} [DecidableEq ε] [DecidableEq α] :
    DecidableEq (Except ε α) := fun x y =>
  match x, y with
  | .error a, .error b =>
    if h : a = b then isTrue (by rw [h]) else isFalse (fun hc => h (by injection hc))
  | .ok a, .ok b =>
    if h : a = b then isTrue (by rw [h]) else isFalse (fun hc => h (by injection hc))
  | .error _, .ok _ => isFalse (fun hc => Except.noConfusion hc)
  | .ok _, .error _ => isFalse (fun hc => Except.noConfusion hc)

/-! ### Data model (`src/lib.rs`) -/

inductive AuthScope where
  | ReadFacts
  | WriteFacts
  | WritePolicy
  | ExternalAPI
  | RoboticsAction
deriving DecidableEq

/-- Rust `{:?}` rendering of an `AuthScope`, used in the denial message. -/
def AuthScope.debugRepr : AuthScope → String
  | .ReadFacts => "ReadFacts"
  | .WriteFacts => "WriteFacts"
  | .WritePolicy => "WritePolicy"
  | .ExternalAPI => "ExternalAPI"
  | .RoboticsAction => "RoboticsAction"

structure AgentIdentity where
  id : String
  scopes : List AuthScope

/-- `AuthorizationGatekeeper::can_access` (also the body of
`PAGICoreModel::check_authorization`, which only adds logging). -/
def can_access (identity : AgentIdentity) (required : AuthScope) : Except String Unit :=
  if required ∈ identity.scopes then Except.ok ()
  else
    Except.error ("Permission denied: agent '" ++ identity.id
      ++ "' missing required scope " ++ required.debugRepr)

structure Task where
  agent_type : String
  input_data : String
deriving DecidableEq

abbrev Plan := List Task

structure AgentFact where
  agent_id : String
  timestamp : Nat
  fact_type : String
  content : String
deriving DecidableEq

structure ReflectionFact where
  target_agent : String
  critique : String
  new_directive : String
deriving DecidableEq

structure PAGIRule where
  id : String
  condition_fact_type : String
  condition_keyword : String
  action_directive : String
deriving DecidableEq

/-- `PAGICoreModel::default_rules`. -/
def default_rules : List PAGIRule :=
  [ ⟨"rule_failure_rerun_deep", "AnalysisResult", "Failure", "Rerun: Deep Search"⟩,
    ⟨"rule_cyber_alert_triage", "AnalysisResult", "CYBER_ALERT",
      "TASK: CybersecurityAgent, INPUT: Triage alert"⟩ ]

/-! ### Fact store (`sled`-backed `facts` tree)

The tree is a list of key/value entries kept in ascending byte order of keys,
with sled's monotone id counter alongside.  The serde round-trip on values is
modeled as exact (values written by `record_fact_unchecked` deserialize back
to the fact that was written): `AgentFact` consists of strings and a `u64`,
for which `serde_json` serialization is total and faithful — in particular the
`expect` on `serde_json::to_vec` in `record_fact_unchecked` can never fire.
Fallible sled calls are driven by a `SledOps` outcome record. -/

structure StoreState where
  entries : List (List Char × AgentFact)
  nextId : Nat
deriving DecidableEq

/-- Outcomes of the fallible sled operations during one `record` call. -/
structure SledOps where
  openOk : Bool
  genOk : Bool
  insertOk : Bool
  flushOk : Bool
deriving DecidableEq

def SledOps.allOk : SledOps := ⟨true, true, true, true⟩

/-- sled `Tree::insert`: insert in key order, overwriting an equal key. -/
def insertEntry (k : List Char) (v : AgentFact) :
    List (List Char × AgentFact) → List (List Char × AgentFact)
  | [] => [(k, v)]
  | (k', v') :: rest =>
    if lexLt k k' then (k, v) :: (k', v') :: rest
    else if k = k' then (k, v) :: rest
    else (k', v') :: insertEntry k v rest

/-- `PAGICoreModel::record_fact_unchecked`.  Returns the post-call store state
together with the call's result (the state is returned even on error, because
`generate_id` advances the counter and `insert` lands in the tree even when a
later step fails). -/
def record_fact_unchecked (ops : SledOps) (st : StoreState) (fact : AgentFact) :
    StoreState × Except String Unit :=
  if ops.openOk = false then (st, Except.error "sled: failed to open tree")
  else if ops.genOk = false then (st, Except.error "sled: failed to generate id")
  else
    let id := st.nextId
    let st1 : StoreState := { st with nextId := id + 1 }
    if ops.insertOk = false then (st1, Except.error "sled: insert failed")
    else
      let st2 : StoreState :=
        { st1 with entries := insertEntry (makeKey fact.timestamp id) fact st1.entries }
      if ops.flushOk = false then (st2, Except.error "sled: flush failed")
      else (st2, Except.ok ())

/-- `PAGICoreModel::record_fact` (authorization gate, then unchecked write). -/
def record_fact (ops : SledOps) (identity : AgentIdentity) (st : StoreState)
    (fact : AgentFact) : StoreState × Except String Unit :=
  match can_access identity AuthScope.WriteFacts with
  | Except.ok _ =>
    let p := record_fact_unchecked ops st fact
    (p.1, p.2.mapError (fun e => "KB write failed: " ++ e))
  | Except.error _ =>
    match can_access identity AuthScope.RoboticsAction with
    | Except.error e => (st, Except.error e)
    | Except.ok _ =>
      let p := record_fact_unchecked ops st fact
      (p.1, p.2.mapError (fun e => "KB write failed: " ++ e))

/-- `PAGICoreModel::retrieve_facts_by_timestamp_unchecked`.  `start_ts` is a
`u128` in the source, converted with `u64::try_from(..).unwrap_or(u64::MAX)`;
`openOk` is the outcome of `open_tree` (on failure the source returns an
empty list). -/
def retrieve_facts_by_timestamp_unchecked (openOk : Bool) (st : StoreState)
    (start_ts : Nat) : List AgentFact :=
  let start64 := if start_ts < 2 ^ 64 then start_ts else 2 ^ 64 - 1
  if openOk = false then []
  else
    st.entries.filterMap (fun e =>
      match parseKeyTs e.1 with
      | none => none
      | some ts => if ts < start64 then none else some e.2)

/-- `PAGICoreModel::retrieve_facts_by_timestamp` (read-authorization gate). -/
def retrieve_facts_by_timestamp (openOk : Bool) (identity : AgentIdentity)
    (st : StoreState) (start_ts : Nat) : Except String (List AgentFact) :=
  match can_access identity AuthScope.ReadFacts with
  | Except.error e => Except.error e
  | Except.ok _ => Except.ok (retrieve_facts_by_timestamp_unchecked openOk st start_ts)

/-! ### Rule engine -/

/-- The per-(fact, rule) match condition of `apply_rules_to_facts`. -/
def ruleMatches (fact : AgentFact) (rule : PAGIRule) : Bool :=
  fact.fact_type == rule.condition_fact_type
    && containsStr fact.content rule.condition_keyword

/-- Rust `String` `Ord` as a `≤` relation: byte-wise lexicographic. -/
def strLe (a b : String) : Prop := lexLt b.data a.data = false

instance : DecidableRel strLe := fun a b => by unfold strLe; infer_instance

instance : IsTotal String strLe :=
  ⟨fun a b => by
    unfold strLe
    by_cases h : lexLt b.data a.data = true
    · exact Or.inr (lexLt_asymm h)
    · exact Or.inl (by simpa using h)⟩

instance : IsTrans String strLe :=
  ⟨fun a b c hab hbc => by
    unfold strLe at *
    by_contra hac
    have hca : lexLt c.data a.data = true := by
      cases h : lexLt c.data a.data
      · exact absurd h hac
      · rfl
    rcases lexLt_trichotomy a.data b.data with h | h | h
    · have := lexLt_trans hca h
      rw [this] at hbc
      exact absurd hbc (by simp)
    · rw [h] at hca
      rw [hca] at hbc
      exact absurd hbc (by simp)
    · rw [h] at hab
      exact absurd hab (by simp)⟩

instance : IsAntisymm String strLe :=
  ⟨fun a b hab hba => by
    unfold strLe at *
    rcases lexLt_trichotomy a.data b.data with h | h | h
    · rw [h] at hba
      exact absurd hba (by simp)
    · cases a; cases b
      simp only at h
      rw [h]
    · rw [h] at hab
      exact absurd hab (by simp)⟩

/-- Tail of `Vec::dedup`: drop elements equal to the previous kept one. -/
def dedupGo (prev : String) : List String → List String
  | [] => []
  | b :: rest => if prev = b then dedupGo prev rest else b :: dedupGo b rest

/-- `Vec::dedup`: remove consecutive duplicates, keeping the first of a run. -/
def dedupAdj : List String → List String
  | [] => []
  | a :: rest => a :: dedupGo a rest

/-- `PAGICoreModel::apply_rules_to_facts`: nested fact/rule loop collecting
matching directives, then `sort` and `dedup`. -/
def apply_rules_to_facts (rules : List PAGIRule) (facts : List AgentFact) : List String :=
  let directives :=
    facts.flatMap (fun fact => ((rules.filter (ruleMatches fact)).map (·.action_directive)))
  dedupAdj (List.insertionSort strLe directives)

/-- `PAGICoreModel::resolve_symbolic_directives`. -/
def resolve_symbolic_directives (rules : List PAGIRule) (openOk : Bool)
    (st : StoreState) : List String :=
  apply_rules_to_facts rules (retrieve_facts_by_timestamp_unchecked openOk st 0)

/-- The `any(|d| d.to_lowercase().contains("deep"))` test in
`apply_symbolic_directives_to_plan`. -/
def wantsDeepRerun (directives : List String) : Bool :=
  directives.any (fun d => containsStr (toLowerStr d) "deep")

/-- One rerun variant built for a `SearchAgent` task inside
`apply_symbolic_directives_to_plan`. -/
def rerunVariant (directives : List String) (t : Task) (variant : Nat) : Task :=
  let payload := match Json.parse t.input_data with
    | some v => v
    | none => Json.obj [("raw", Json.str t.input_data)]
  let payload2 := match payload with
    | Json.obj m =>
      Json.obj (objInsert "symbolic_directives" (Json.arr (directives.map Json.str))
        (objInsert "rerun_variant" (Json.num (Int.ofNat variant))
          (objInsert "deep" (Json.bool true) m)))
    | other => other
  { agent_type := "SearchAgent", input_data := payload2.print }

/-- The per-task step of `apply_symbolic_directives_to_plan`'s loop. -/
def expandTask (directives : List String) (t : Task) : List Task :=
  if t.agent_type ≠ "SearchAgent" then [t]
  else [t, rerunVariant directives t 1, rerunVariant directives t 2]

/-- `PAGICoreModel::apply_symbolic_directives_to_plan`. -/
def apply_symbolic_directives_to_plan (plan : Plan) (directives : List String) : Plan :=
  if wantsDeepRerun directives = false then plan
  else plan.flatMap (expandTask directives)

/-! ### Reflection lookup -/

def jsonAsStr : Json → Option String
  | Json.str s => some s
  | _ => none

/-- `serde_json::from_str::<ReflectionFact>`: an object with the three string
fields (unknown fields ignored, as serde does by default). -/
def reflectionFromJson (s : String) : Option ReflectionFact :=
  match Json.parse s with
  | some j =>
    match (jsonGet j "target_agent").bind jsonAsStr,
        (jsonGet j "critique").bind jsonAsStr,
        (jsonGet j "new_directive").bind jsonAsStr with
    | some a, some c, some n => some ⟨a, c, n⟩
    | _, _, _ => none
  | none => none

/-- Rust `Iterator::max_by_key` on `(timestamp, reflection)` pairs: on ties
the LAST maximal element wins. -/
def maxByTsLast (l : List (Nat × ReflectionFact)) : Option (Nat × ReflectionFact) :=
  match l with
  | [] => none
  | x :: xs => some (xs.foldl (fun best y => if best.1 ≤ y.1 then y else best) x)

/-- `PAGICoreModel::latest_reflection_for_agent`. -/
def latest_reflection_for_agent (openOk : Bool) (st : StoreState)
    (target_agent : String) : Option ReflectionFact :=
  let facts := retrieve_facts_by_timestamp_unchecked openOk st 0
  let cands := facts.filterMap (fun f =>
    if f.fact_type == "ReflectionFact" then
      match reflectionFromJson f.content with
      | some r => if r.target_agent == target_agent then some (f.timestamp, r) else none
      | none => none
    else none)
  (maxByTsLast cands).map (·.2)

/-! ### Planner -/

/-- One element of the LLM plan array in `parse_llm_plan`. -/
def taskFromItem (item : Json) : Except String Task :=
  match (jsonGet item "agent_type").bind jsonAsStr with
  | none => Except.error "Task missing 'agent_type'"
  | some agentType =>
    let inputVal := (jsonGet item "input_data").getD (Json.obj [])
    let input_data := match inputVal with
      | Json.str s => s
      | other => other.print
    Except.ok { agent_type := agentType, input_data := input_data }

def parse_llm_items : List Json → Except String (List Task)
  | [] => Except.ok []
  | item :: rest =>
    match taskFromItem item with
    | Except.error e => Except.error e
    | Except.ok t =>
      match parse_llm_items rest with
      | Except.error e => Except.error e
      | Except.ok ts => Except.ok (t :: ts)

/-- `PAGICoreModel::parse_llm_plan`.  (The non-JSON error text embeds the
serde error in the source; the model keeps a fixed message — no claim depends
on that string.) -/
def parse_llm_plan (raw : String) : Except String (List Task) :=
  match Json.parse raw with
  | none => Except.error ("LLM returned non-JSON plan. Raw: " ++ raw)
  | some (Json.arr items) => parse_llm_items items
  | some _ => Except.error "LLM plan must be a JSON array"

/-- The keyword test of the security fast-path (applied to a lowercased
string). -/
def hasSecurityKeyword (lowered : String) : Bool :=
  containsStr lowered "siem" || containsStr lowered "crowdstrike"
    || containsStr lowered "rapid7"

/-- The single security-triage task the fallback builds. -/
def securityTask (normalized : String) : Task :=
  { agent_type := "CybersecurityAgent",
    input_data := (mkObj [("action", Json.str "Triage alert"),
      ("source_prompt", Json.str normalized)]).print }

def examplePrompt : String :=
  "Please research the top anti-aging compounds and schedule a team meeting for next week to present the findings."

def searchBaseTask : Task :=
  { agent_type := "SearchAgent",
    input_data := (mkObj [("query", Json.str "top anti-aging compounds"),
      ("deliverable", Json.str "summary of leading compounds with citations")]).print }

def calendarBaseTask : Task :=
  { agent_type := "CalendarAgent",
    input_data := (mkObj [("title", Json.str "Anti-aging compounds research review"),
      ("timeframe", Json.str "next week"),
      ("agenda", Json.str "Present research findings and next steps")]).print }

def basePlan : Plan := [searchBaseTask, calendarBaseTask]

def reflectionSearchTask (q d directive : String) : Task :=
  { agent_type := "SearchAgent",
    input_data := (mkObj [("query", Json.str q), ("deliverable", Json.str d),
      ("directive_applied", Json.str directive)]).print }

/-- The expanded four-task plan built on the reflection path. -/
def reflectionPlan (directive : String) : Plan :=
  [ reflectionSearchTask "top anti-aging compounds overview" "high-level summary" directive,
    reflectionSearchTask "anti-aging: rapamycin metformin spermidine" "mechanisms + evidence"
      directive,
    reflectionSearchTask "anti-aging: senolytics fisetin quercetin"
      "senolytic candidates summary" directive,
    calendarBaseTask ]

def noPlanMatchedMsg : String := "No planning rule matched this prompt (stub planner)."

/-- The reflection branch of the fallback (`directive` is the lowercased
`new_directive` in the source; inlined here). -/
def reflectionBranch (reflection : ReflectionFact) : Except String Plan :=
  if containsStr (toLowerStr reflection.new_directive) "split"
      || containsStr (toLowerStr reflection.new_directive) "concurr" then
    Except.ok (reflectionPlan reflection.new_directive)
  else Except.ok basePlan

/-- `PAGICoreModel::general_reasoning_fallback`.  (The source binds
`normalized`/`lowered`/`directives` with `let`; they are inlined here, which
is meaning-preserving since everything is pure.) -/
def general_reasoning_fallback (rules : List PAGIRule) (openOk : Bool)
    (st : StoreState) (prompt : String) : Except String Plan :=
  if hasSecurityKeyword (toLowerStr (trimStr prompt)) then
    Except.ok [securityTask (trimStr prompt)]
  else if trimStr prompt = examplePrompt then
    if (resolve_symbolic_directives rules openOk st).isEmpty = false then
      Except.ok (apply_symbolic_directives_to_plan basePlan
        (resolve_symbolic_directives rules openOk st))
    else
      match latest_reflection_for_agent openOk st "SearchAgent" with
      | some reflection => reflectionBranch reflection
      | none => Except.ok basePlan
  else Except.error noPlanMatchedMsg

/-- `PAGICoreModel::general_reasoning`.  `disableLLM` models the
`PAGI_DISABLE_LLM=1` environment check. -/
def general_reasoning (rules : List PAGIRule) (openOk : Bool) (st : StoreState)
    (disableLLM : Bool) (prompt llm_response_json : String) : Except String Plan :=
  if hasSecurityKeyword (toLowerStr prompt) then
    general_reasoning_fallback rules openOk st prompt
  else if trimStr llm_response_json = "" || disableLLM then
    general_reasoning_fallback rules openOk st prompt
  else
    match parse_llm_plan llm_response_json with
    | Except.ok tasks =>
      if tasks.isEmpty then general_reasoning_fallback rules openOk st prompt
      else
        if (resolve_symbolic_directives rules openOk st).isEmpty then Except.ok tasks
        else Except.ok (apply_symbolic_directives_to_plan tasks
          (resolve_symbolic_directives rules openOk st))
    | Except.error _ => general_reasoning_fallback rules openOk st prompt

/-! ## Claim theorems -/

theorem mem_insertEntry_self (k : List Char) (v : AgentFact)
    (l : List (List Char × AgentFact)) : (k, v) ∈ insertEntry k v l := by
  induction l with
  | nil => simp [insertEntry]
  | cons e rest ih =>
    obtain ⟨k', v'⟩ := e
    rw [insertEntry]
    by_cases h1 : lexLt k k' = true
    · simp [h1]
    · by_cases h2 : k = k'
      · subst h2
        simp [lexLt_irrefl]
      · simp only [h1, if_neg h2, if_false]
        exact List.mem_cons_of_mem _ ih

/-- C4: `record_fact` succeeds for a `WriteFacts` holder, succeeds for a
`RoboticsAction` holder (policy exception), and for an identity holding
neither fails with the permission-denied error, leaving the store untouched. -/
theorem claim_C4 (st : StoreState) (fact : AgentFact) (idStr : String)
    (scopes : List AuthScope) :
    (AuthScope.WriteFacts ∈ scopes →
      (record_fact SledOps.allOk ⟨idStr, scopes⟩ st fact).2 = Except.ok ()) ∧
    (AuthScope.RoboticsAction ∈ scopes →
      (record_fact SledOps.allOk ⟨idStr, scopes⟩ st fact).2 = Except.ok ()) ∧
    (AuthScope.WriteFacts ∉ scopes → AuthScope.RoboticsAction ∉ scopes →
      ∀ ops : SledOps,
        (record_fact ops ⟨idStr, scopes⟩ st fact).1 = st ∧
        (record_fact ops ⟨idStr, scopes⟩ st fact).2 =
          Except.error ("Permission denied: agent '" ++ idStr
            ++ "' missing required scope " ++ AuthScope.RoboticsAction.debugRepr)) := by
  refine ⟨fun hw => ?_, fun hr => ?_, fun hnw hnr ops => ?_⟩
  · simp [record_fact, can_access, hw, record_fact_unchecked, SledOps.allOk, Except.mapError]
  · by_cases hw : AuthScope.WriteFacts ∈ scopes
    · simp [record_fact, can_access, hw, hr, record_fact_unchecked, SledOps.allOk,
        Except.mapError]
    · simp [record_fact, can_access, hw, hr, record_fact_unchecked, SledOps.allOk,
        Except.mapError]
  · constructor
    · simp [record_fact, can_access, hnw, hnr]
    · simp [record_fact, can_access, hnw, hnr, AuthScope.debugRepr]

theorem claim_C4_witness :
    ((record_fact SledOps.allOk ⟨"w", [AuthScope.WriteFacts]⟩ ⟨[], 0⟩
        ⟨"a", 1, "T", "c"⟩).2 = Except.ok ())
  ∧ ((record_fact SledOps.allOk ⟨"r", [AuthScope.RoboticsAction]⟩ ⟨[], 0⟩
        ⟨"a", 1, "T", "c"⟩).2 = Except.ok ())
  ∧ ((record_fact SledOps.allOk ⟨"x", [AuthScope.ReadFacts]⟩ ⟨[], 0⟩
        ⟨"a", 1, "T", "c"⟩).1 = (⟨[], 0⟩ : StoreState))
  ∧ ((record_fact SledOps.allOk ⟨"x", [AuthScope.ReadFacts]⟩ ⟨[], 0⟩
        ⟨"a", 1, "T", "c"⟩).2 = Except.error
          "Permission denied: agent 'x' missing required scope RoboticsAction") :=
  ⟨(claim_C4 ⟨[], 0⟩ ⟨"a", 1, "T", "c"⟩ "w" [AuthScope.WriteFacts]).1 (by decide),
   (claim_C4 ⟨[], 0⟩ ⟨"a", 1, "T", "c"⟩ "r" [AuthScope.RoboticsAction]).2.1 (by decide),
   ((claim_C4 ⟨[], 0⟩ ⟨"a", 1, "T", "c"⟩ "x" [AuthScope.ReadFacts]).2.2 (by decide)
      (by decide) SledOps.allOk).1,
   ((claim_C4 ⟨[], 0⟩ ⟨"a", 1, "T", "c"⟩ "x" [AuthScope.ReadFacts]).2.2 (by decide)
      (by decide) SledOps.allOk).2⟩

/-- C7: `record_fact_unchecked` returns a plain error value on any sled
failure and `Ok` exactly when every step (open, id generation, insert, flush)
succeeded; on success the fact is fully present in the tree, and in every
case the tree either is untouched or holds the complete new entry — never a
partial record.  (Serialization of an `AgentFact` — strings and a `u64` —
cannot fail, so the `expect` on `serde_json::to_vec` never fires; the model
treats it as total.) -/
theorem claim_C7 (ops : SledOps) (st : StoreState) (fact : AgentFact) :
    ((record_fact_unchecked ops st fact).2 = Except.ok () ↔
      ops.openOk = true ∧ ops.genOk = true ∧ ops.insertOk = true ∧ ops.flushOk = true) ∧
    ((record_fact_unchecked ops st fact).2 = Except.ok () →
      (makeKey fact.timestamp st.nextId, fact)
        ∈ (record_fact_unchecked ops st fact).1.entries) ∧
    ((record_fact_unchecked ops st fact).1.entries = st.entries ∨
      (record_fact_unchecked ops st fact).1.entries
        = insertEntry (makeKey fact.timestamp st.nextId) fact st.entries) := by
  obtain ⟨o, g, i, f⟩ := ops
  refine ⟨?_, ?_, ?_⟩
  · cases o <;> cases g <;> cases i <;> cases f <;>
      simp [record_fact_unchecked]
  · intro h
    cases o <;> cases g <;> cases i <;> cases f <;>
      simp_all [record_fact_unchecked, mem_insertEntry_self]
  · cases o <;> cases g <;> cases i <;> cases f <;>
      simp [record_fact_unchecked]

theorem claim_C7_witness :
    ((record_fact_unchecked SledOps.allOk ⟨[], 0⟩ ⟨"a", 1, "T", "c"⟩).2 = Except.ok ())
  ∧ ((makeKey 1 0, (⟨"a", 1, "T", "c"⟩ : AgentFact))
      ∈ (record_fact_unchecked SledOps.allOk ⟨[], 0⟩ ⟨"a", 1, "T", "c"⟩).1.entries) :=
  have h := claim_C7 SledOps.allOk ⟨[], 0⟩ ⟨"a", 1, "T", "c"⟩
  have hok : (record_fact_unchecked SledOps.allOk ⟨[], 0⟩ ⟨"a", 1, "T", "c"⟩).2
      = Except.ok () := h.1.mpr ⟨rfl, rfl, rfl, rfl⟩
  ⟨hok, h.2.1 hok⟩

/-! ### Dedup / sort lemmas for the rule engine -/

theorem mem_of_mem_dedupGo {x prev : String} :
    ∀ {l : List String}, x ∈ dedupGo prev l → x ∈ l := by
  intro l
  induction l generalizing prev with
  | nil => intro h; simp [dedupGo] at h
  | cons b rest ih =>
    intro h
    rw [dedupGo] at h
    by_cases hb : prev = b
    · rw [if_pos hb] at h
      exact List.mem_cons_of_mem _ (ih h)
    · rw [if_neg hb] at h
      rcases List.mem_cons.mp h with h | h
      · exact h ▸ List.mem_cons_self _ _
      · exact List.mem_cons_of_mem _ (ih h)

theorem mem_dedupGo_of_mem {x prev : String} :
    ∀ {l : List String}, x ∈ l → x = prev ∨ x ∈ dedupGo prev l := by
  intro l
  induction l generalizing prev with
  | nil => intro h; simp at h
  | cons b rest ih =>
    intro h
    rw [dedupGo]
    by_cases hb : prev = b
    · rw [if_pos hb]
      rcases List.mem_cons.mp h with h | h
      · exact Or.inl (by rw [h, ← hb])
      · exact ih h
    · rw [if_neg hb]
      rcases List.mem_cons.mp h with h | h
      · exact Or.inr (h ▸ List.mem_cons_self _ _)
      · rcases ih h with h' | h'
        · exact Or.inr (h' ▸ List.mem_cons_self _ _)
        · exact Or.inr (List.mem_cons_of_mem _ h')

theorem mem_dedupAdj {x : String} {l : List String} : x ∈ dedupAdj l ↔ x ∈ l := by
  cases l with
  | nil => simp [dedupAdj]
  | cons a rest =>
    rw [dedupAdj]
    constructor
    · intro h
      rcases List.mem_cons.mp h with h | h
      · exact h ▸ List.mem_cons_self _ _
      · exact List.mem_cons_of_mem _ (mem_of_mem_dedupGo h)
    · intro h
      rcases List.mem_cons.mp h with h | h
      · exact h ▸ List.mem_cons_self _ _
      · rcases mem_dedupGo_of_mem h with h' | h'
        · exact h' ▸ List.mem_cons_self _ _
        · exact List.mem_cons_of_mem _ h'

/-- Strict version of `strLe`. -/
def strLt (a b : String) : Prop := strLe a b ∧ a ≠ b

theorem sorted_dedupGo {l : List String} (hs : l.Sorted strLe) :
    ∀ prev, (∀ x ∈ l, strLe prev x) →
      (dedupGo prev l).Sorted strLt ∧
      ∀ x ∈ dedupGo prev l, strLe prev x ∧ x ≠ prev := by
  induction l with
  | nil => intro prev hb; simp [dedupGo]
  | cons b rest ih =>
    intro prev hb
    have hsrest : rest.Sorted strLe := (List.sorted_cons.mp hs).2
    have hbrest : ∀ x ∈ rest, strLe b x := (List.sorted_cons.mp hs).1
    rw [dedupGo]
    by_cases hpb : prev = b
    · rw [if_pos hpb]
      subst hpb
      exact ih hsrest prev hbrest
    · rw [if_neg hpb]
      obtain ⟨ihs, ihb⟩ := ih hsrest b hbrest
      have hprevb : strLe prev b := hb b (List.mem_cons_self _ _)
      refine ⟨List.sorted_cons.mpr ⟨?_, ihs⟩, ?_⟩
      · intro x hx
        obtain ⟨h1, h2⟩ := ihb x hx
        exact ⟨h1, fun hc => h2 hc.symm⟩
      · intro x hx
        rcases List.mem_cons.mp hx with hx | hx
        · exact ⟨hx ▸ hprevb, hx ▸ fun hc => hpb hc.symm⟩
        · obtain ⟨h1, h2⟩ := ihb x hx
          refine ⟨Trans.trans hprevb h1, fun hc => ?_⟩
          subst hc
          exact hpb (antisymm hprevb h1)

theorem sorted_dedupAdj {l : List String} (hs : l.Sorted strLe) :
    (dedupAdj l).Sorted strLt := by
  cases l with
  | nil => simp [dedupAdj]
  | cons a rest =>
    rw [dedupAdj]
    have hsrest : rest.Sorted strLe := (List.sorted_cons.mp hs).2
    have harest : ∀ x ∈ rest, strLe a x := (List.sorted_cons.mp hs).1
    obtain ⟨h1, h2⟩ := sorted_dedupGo hsrest a harest
    exact List.sorted_cons.mpr ⟨fun x hx => ⟨(h2 x hx).1, fun hc => (h2 x hx).2 hc.symm⟩, h1⟩

/-- C5: `apply_rules_to_facts` returns a deduplicated list, sorted ascending
in the byte-lexicographic string order, whose members are exactly the
directives of rules matched by some fact; repeated calls return the identical
list (the function is pure). -/
theorem claim_C5 (rules : List PAGIRule) (facts : List AgentFact) :
    (apply_rules_to_facts rules facts).Sorted strLe ∧
    (apply_rules_to_facts rules facts).Nodup ∧
    (∀ s : String, s ∈ apply_rules_to_facts rules facts ↔
      ∃ r ∈ rules, r.action_directive = s ∧ ∃ f ∈ facts, ruleMatches f r = true) ∧
    apply_rules_to_facts rules facts = apply_rules_to_facts rules facts := by
  have hsorted : (List.insertionSort strLe
      (facts.flatMap (fun fact =>
        ((rules.filter (ruleMatches fact)).map (·.action_directive))))).Sorted strLe :=
    List.sorted_insertionSort strLe _
  have hstrict := sorted_dedupAdj hsorted
  refine ⟨hstrict.imp (fun h => h.1), ?_, ?_, rfl⟩
  · exact List.Pairwise.imp (fun h => h.2) hstrict
  · intro s
    rw [apply_rules_to_facts]
    simp only [mem_dedupAdj, List.mem_insertionSort, List.mem_flatMap, List.mem_map,
      List.mem_filter]
    constructor
    · rintro ⟨f, hf, r, ⟨hr, hm⟩, hs⟩
      exact ⟨r, hr, hs, f, hf, hm⟩
    · rintro ⟨r, hr, hs, f, hf, hm⟩
      exact ⟨f, hf, r, ⟨hr, hm⟩, hs⟩

theorem claim_C5_witness :
    ("Rerun: Deep Search" ∈ apply_rules_to_facts default_rules
        [⟨"agent", 1, "AnalysisResult", "Failure: timeout"⟩])
  ∧ (apply_rules_to_facts default_rules
      [⟨"agent", 1, "AnalysisResult", "Failure: timeout"⟩]).Nodup :=
  have h := claim_C5 default_rules [⟨"agent", 1, "AnalysisResult", "Failure: timeout"⟩]
  ⟨(h.2.2.1 "Rerun: Deep Search").mpr
      ⟨⟨"rule_failure_rerun_deep", "AnalysisResult", "Failure", "Rerun: Deep Search"⟩,
        by decide, rfl,
        ⟨"agent", 1, "AnalysisResult", "Failure: timeout"⟩, by decide, by decide⟩,
   h.2.1⟩

/-- C10: `apply_rules_to_facts` is insensitive to the order of its input
facts — permuted fact lists yield the identical directive list. -/
theorem claim_C10 (rules : List PAGIRule) (facts1 facts2 : List AgentFact)
    (h : facts1.Perm facts2) :
    apply_rules_to_facts rules facts1 = apply_rules_to_facts rules facts2 := by
  rw [apply_rules_to_facts, apply_rules_to_facts]
  have hperm : (facts1.flatMap (fun fact =>
        ((rules.filter (ruleMatches fact)).map (·.action_directive)))).Perm
      (facts2.flatMap (fun fact =>
        ((rules.filter (ruleMatches fact)).map (·.action_directive)))) :=
    h.flatMap_right _
  have hsortperm : (List.insertionSort strLe (facts1.flatMap (fun fact =>
      ((rules.filter (ruleMatches fact)).map (·.action_directive))))).Perm
      (List.insertionSort strLe (facts2.flatMap (fun fact =>
        ((rules.filter (ruleMatches fact)).map (·.action_directive))))) :=
    ((List.perm_insertionSort strLe _).trans hperm).trans
      (List.perm_insertionSort strLe _).symm
  rw [List.eq_of_perm_of_sorted hsortperm (List.sorted_insertionSort strLe _)
    (List.sorted_insertionSort strLe _)]

theorem claim_C10_witness :
    ([(⟨"a", 1, "AnalysisResult", "Failure x"⟩ : AgentFact),
        ⟨"b", 2, "AnalysisResult", "CYBER_ALERT y"⟩].Perm
      [⟨"b", 2, "AnalysisResult", "CYBER_ALERT y"⟩, ⟨"a", 1, "AnalysisResult", "Failure x"⟩])
  ∧ apply_rules_to_facts default_rules
      [⟨"a", 1, "AnalysisResult", "Failure x"⟩, ⟨"b", 2, "AnalysisResult", "CYBER_ALERT y"⟩]
    = apply_rules_to_facts default_rules
      [⟨"b", 2, "AnalysisResult", "CYBER_ALERT y"⟩, ⟨"a", 1, "AnalysisResult", "Failure x"⟩] :=
  ⟨by decide,
   claim_C10 default_rules _ _ (by decide)⟩

/-! ### Lemmas about `apply_symbolic_directives_to_plan` -/

theorem filter_flatMap_expand (directives : List String) (plan : Plan) :
    (plan.flatMap (expandTask directives)).filter (fun t => t.agent_type != "SearchAgent")
      = plan.filter (fun t => t.agent_type != "SearchAgent") := by
  induction plan with
  | nil => rfl
  | cons t ts ih =>
    rw [List.flatMap_cons, List.filter_append, ih, List.filter_cons]
    by_cases ht : t.agent_type = "SearchAgent"
    · have hb : (t.agent_type != "SearchAgent") = false := by
        simp [ht]
      rw [expandTask, if_neg (by simp [ht]), hb]
      simp only [Bool.false_eq_true, if_false]
      have hv1 : ((rerunVariant directives t 1).agent_type != "SearchAgent") = false := by
        simp [rerunVariant]
      have hv2 : ((rerunVariant directives t 2).agent_type != "SearchAgent") = false := by
        simp [rerunVariant]
      simp [List.filter_cons, hb, hv1, hv2]
    · have hb : (t.agent_type != "SearchAgent") = true := by
        simp [ht]
      rw [expandTask, if_pos (by simp [ht])]
      simp [List.filter_cons, hb]

theorem length_flatMap_expand (directives : List String) (plan : Plan) :
    (plan.flatMap (expandTask directives)).length
      = plan.length + 2 * plan.countP (fun t => t.agent_type == "SearchAgent") := by
  induction plan with
  | nil => rfl
  | cons t ts ih =>
    rw [List.flatMap_cons, List.length_append, ih, List.countP_cons, List.length_cons]
    by_cases ht : t.agent_type = "SearchAgent"
    · rw [expandTask, if_neg (by simp [ht])]
      simp [ht]
      ring
    · rw [expandTask, if_pos (by simp [ht])]
      simp [ht]
      ring

/-- C2 (amended): with no qualifying "deep" directive the plan passes through
unchanged; with one, the plan is the in-place per-task expansion that keeps
every non-`SearchAgent` task (in order and count) and replaces each
`SearchAgent` task with itself followed by two rerun variants.  A variant's
payload is the original payload extended with the deep marker, ordinal and
directive list when the original `input_data` parses as a JSON object, and
the `{"raw": ...}`-wrapped extension when it does not parse; but when it
parses as valid non-object JSON the value is re-serialized with NO added
fields (this is where the original claim fails). -/
theorem claim_C2_amended (plan : Plan) (directives : List String) :
    (wantsDeepRerun directives = false →
      apply_symbolic_directives_to_plan plan directives = plan) ∧
    (wantsDeepRerun directives = true →
      apply_symbolic_directives_to_plan plan directives
          = plan.flatMap (expandTask directives) ∧
      (apply_symbolic_directives_to_plan plan directives).filter
          (fun t => t.agent_type != "SearchAgent")
        = plan.filter (fun t => t.agent_type != "SearchAgent") ∧
      (apply_symbolic_directives_to_plan plan directives).length
        = plan.length + 2 * plan.countP (fun t => t.agent_type == "SearchAgent")) ∧
    (∀ t : Task, t.agent_type = "SearchAgent" →
      expandTask directives t
        = [t, rerunVariant directives t 1, rerunVariant directives t 2]) ∧
    (∀ t : Task, t.agent_type ≠ "SearchAgent" → expandTask directives t = [t]) ∧
    (∀ t : Task, ∀ v : Nat, ∀ m, Json.parse t.input_data = some (Json.obj m) →
      rerunVariant directives t v = ⟨"SearchAgent",
        (Json.obj (objInsert "symbolic_directives" (Json.arr (directives.map Json.str))
          (objInsert "rerun_variant" (Json.num (Int.ofNat v))
            (objInsert "deep" (Json.bool true) m)))).print⟩) ∧
    (∀ t : Task, ∀ v : Nat, Json.parse t.input_data = none →
      rerunVariant directives t v = ⟨"SearchAgent",
        (Json.obj (objInsert "symbolic_directives" (Json.arr (directives.map Json.str))
          (objInsert "rerun_variant" (Json.num (Int.ofNat v))
            (objInsert "deep" (Json.bool true) [("raw", Json.str t.input_data)])))).print⟩) ∧
    (∀ t : Task, ∀ v : Nat, ∀ j, Json.parse t.input_data = some j →
      (∀ m, j ≠ Json.obj m) → rerunVariant directives t v = ⟨"SearchAgent", j.print⟩) := by
  refine ⟨fun hno => ?_, fun hyes => ?_, fun t ht => ?_, fun t ht => ?_,
    fun t v m hp => ?_, fun t v hp => ?_, fun t v j hp hno => ?_⟩
  · rw [apply_symbolic_directives_to_plan, if_pos hno]
  · rw [apply_symbolic_directives_to_plan, if_neg (by rw [hyes]; simp)]
    exact ⟨rfl, filter_flatMap_expand directives plan, length_flatMap_expand directives plan⟩
  · rw [expandTask, if_neg (by simp [ht])]
  · rw [expandTask, if_pos (by simp [ht])]
  · simp only [rerunVariant, hp]
  · simp only [rerunVariant, hp]
  · cases j with
    | obj m => exact absurd rfl (hno m)
    | null => simp only [rerunVariant, hp]
    | bool b => simp only [rerunVariant, hp]
    | num n => simp only [rerunVariant, hp]
    | str s => simp only [rerunVariant, hp]
    | floatRaw s => simp only [rerunVariant, hp]
    | arr xs => simp only [rerunVariant, hp]

theorem claim_C2_counterexample :
    (apply_symbolic_directives_to_plan [⟨"SearchAgent", "5"⟩] ["Rerun: Deep Search"]).map
      (·.input_data) = ["5", "5", "5"]
  ∧ wantsDeepRerun ["Rerun: Deep Search"] = true
  ∧ containsStr "5" "deep" = false
  ∧ containsStr "5" "rerun_variant" = false := by decide

theorem claim_C2_amended_witness :
    apply_symbolic_directives_to_plan [⟨"SearchAgent", "x"⟩] [] = [⟨"SearchAgent", "x"⟩]
  ∧ (apply_symbolic_directives_to_plan [⟨"SearchAgent", "x"⟩, ⟨"CalendarAgent", "y"⟩]
      ["Rerun: Deep Search"]).length = 2 + 2 * 1
  ∧ rerunVariant ["Rerun: Deep Search"] ⟨"SearchAgent", "x"⟩ 1 = ⟨"SearchAgent",
      (Json.obj (objInsert "symbolic_directives"
        (Json.arr (["Rerun: Deep Search"].map Json.str))
        (objInsert "rerun_variant" (Json.num (Int.ofNat 1))
          (objInsert "deep" (Json.bool true) [("raw", Json.str "x")])))).print⟩ :=
  have h1 := claim_C2_amended [⟨"SearchAgent", "x"⟩] []
  have h2 := claim_C2_amended [⟨"SearchAgent", "x"⟩, ⟨"CalendarAgent", "y"⟩]
    ["Rerun: Deep Search"]
  ⟨h1.1 (by decide),
   by rw [(h2.2.1 (by decide)).2.2]; decide,
   h2.2.2.2.2.2.1 ⟨"SearchAgent", "x"⟩ 1 (by rfl)⟩

/-! ### Non-emptiness of successful plans -/

theorem expandTask_ne_nil (directives : List String) (t : Task) :
    expandTask directives t ≠ [] := by
  rw [expandTask]
  split <;> simp

theorem apply_symbolic_ne_nil {plan : Plan} (directives : List String) (h : plan ≠ []) :
    apply_symbolic_directives_to_plan plan directives ≠ [] := by
  rw [apply_symbolic_directives_to_plan]
  split
  · exact h
  · cases plan with
    | nil => exact absurd rfl h
    | cons t ts =>
      rw [List.flatMap_cons]
      intro hc
      exact expandTask_ne_nil directives t (List.append_eq_nil.mp hc).1

theorem fallback_ok_ne_nil {rules : List PAGIRule} {openOk : Bool} {st : StoreState}
    {prompt : String} {plan : Plan}
    (h : general_reasoning_fallback rules openOk st prompt = Except.ok plan) :
    plan ≠ [] := by
  rw [general_reasoning_fallback] at h
  split at h
  · injection h with h
    rw [← h]
    simp
  · split at h
    · split at h
      · injection h with h
        rw [← h]
        exact apply_symbolic_ne_nil _ (by simp [basePlan])
      · split at h
        · rw [reflectionBranch] at h
          split at h
          · injection h with h
            rw [← h]
            simp [reflectionPlan]
          · injection h with h
            rw [← h]
            simp [basePlan]
        · injection h with h
          rw [← h]
          simp [basePlan]
    · exact absurd h (by simp)

/-- C9: whenever `general_reasoning` returns successfully, the returned plan
is non-empty, for every identity-independent input (rules, store state, LLM
availability, prompt and supplied plan text). -/
theorem claim_C9 (rules : List PAGIRule) (openOk : Bool) (st : StoreState)
    (disableLLM : Bool) (prompt llm : String) (plan : Plan)
    (h : general_reasoning rules openOk st disableLLM prompt llm = Except.ok plan) :
    plan ≠ [] := by
  rw [general_reasoning] at h
  split at h
  · exact fallback_ok_ne_nil h
  · split at h
    · exact fallback_ok_ne_nil h
    · split at h
      · rename_i tasks heq
        split at h
        · exact fallback_ok_ne_nil h
        · rename_i hne
          split at h
          · injection h with h
            rw [← h]
            intro hc
            rw [hc] at hne
            exact hne rfl
          · injection h with h
            rw [← h]
            exact apply_symbolic_ne_nil _ (by
              intro hc
              rw [hc] at hne
              exact hne rfl)
      · exact fallback_ok_ne_nil h

theorem claim_C9_witness :
    general_reasoning default_rules true ⟨[], 0⟩ false examplePrompt ""
      = Except.ok [searchBaseTask, calendarBaseTask]
  ∧ ([searchBaseTask, calendarBaseTask] : Plan) ≠ [] :=
  have h : general_reasoning default_rules true ⟨[], 0⟩ false examplePrompt ""
      = Except.ok [searchBaseTask, calendarBaseTask] := by decide
  ⟨h, claim_C9 _ _ _ _ _ _ _ h⟩

/-! ### Substring containment survives trimming (for the security fast-path) -/

theorem charOfNat_toNat {n : Nat} (h : n < 0xd800) : (Char.ofNat n).toNat = n := by
  have hv : n.isValidChar := Or.inl h
  rw [Char.ofNat, dif_pos hv, Char.ofNatAux, Char.toNat]
  rfl

theorem isWs_lowerChar (c : Char) : isWs (lowerChar c) = isWs c := by
  rw [lowerChar]
  split
  · rename_i h
    obtain ⟨h1, h2⟩ := h
    have h32 : (Char.ofNat (c.toNat + 32)).toNat = c.toNat + 32 :=
      charOfNat_toNat (by omega)
    have hl : isWs (Char.ofNat (c.toNat + 32)) = false := by
      simp only [isWs, h32, Bool.or_eq_false_iff, decide_eq_false_iff_not]
      omega
    have hr : isWs c = false := by
      simp only [isWs, Bool.or_eq_false_iff, decide_eq_false_iff_not]
      omega
    rw [hl, hr]
  · rfl

theorem startsWith_iff (pat : List Char) : ∀ l : List Char,
    startsWith l pat = true ↔ ∃ rest, l = pat ++ rest := by
  induction pat with
  | nil =>
    intro l
    simp only [startsWith, List.nil_append, true_iff]
    exact ⟨l, rfl⟩
  | cons b bs ih =>
    intro l
    cases l with
    | nil =>
      simp only [startsWith, Bool.false_eq_true, false_iff]
      rintro ⟨rest, hc⟩
      simp at hc
    | cons a as =>
      rw [startsWith]
      simp only [Bool.and_eq_true, decide_eq_true_eq, ih as, List.cons_append,
        List.cons.injEq]
      constructor
      · rintro ⟨rfl, rest, rfl⟩
        exact ⟨rest, rfl, rfl⟩
      · rintro ⟨rest, rfl, rfl⟩
        exact ⟨rfl, rest, rfl⟩

theorem containsL_iff (pat : List Char) : ∀ l : List Char,
    containsL l pat = true ↔ ∃ x y, l = x ++ (pat ++ y) := by
  intro l
  induction l with
  | nil =>
    rw [containsL, startsWith_iff]
    constructor
    · rintro ⟨rest, h⟩
      exact ⟨[], rest, h⟩
    · rintro ⟨x, y, h⟩
      cases x with
      | nil => exact ⟨y, h⟩
      | cons a x' => simp at h
  | cons c t ih =>
    rw [containsL]
    simp only [Bool.or_eq_true, startsWith_iff, ih]
    constructor
    · rintro (⟨rest, h⟩ | ⟨x, y, h⟩)
      · exact ⟨[], rest, h⟩
      · exact ⟨c :: x, y, by rw [List.cons_append, h]⟩
    · rintro ⟨x, y, h⟩
      cases x with
      | nil =>
        left
        exact ⟨y, by simpa using h⟩
      | cons a x' =>
        right
        rw [List.cons_append] at h
        injection h with h1 h2
        exact ⟨x', y, h2⟩

theorem containsL_dropWhile_isWs {pat : List Char} (hne : pat ≠ [])
    (hws : ∀ c ∈ pat, isWs c = false) :
    ∀ l : List Char, containsL l pat = true → containsL (l.dropWhile isWs) pat = true := by
  intro l
  induction l with
  | nil =>
    intro h
    simpa using h
  | cons c t ih =>
    intro h
    rw [List.dropWhile_cons]
    by_cases hc : isWs c = true
    · rw [if_pos hc]
      apply ih
      rw [containsL, Bool.or_eq_true] at h
      rcases h with h | h
      · cases pat with
        | nil => exact absurd rfl hne
        | cons p ps =>
          rw [startsWith, Bool.and_eq_true, decide_eq_true_eq] at h
          obtain ⟨hcp, -⟩ := h
          have := hws p (List.mem_cons_self _ _)
          rw [← hcp, hc] at this
          exact absurd this (by simp)
      · exact h
    · rw [if_neg hc]
      exact h

theorem containsL_reverse {l pat : List Char} (h : containsL l pat = true) :
    containsL l.reverse pat.reverse = true := by
  rw [containsL_iff] at h ⊢
  obtain ⟨x, y, rfl⟩ := h
  exact ⟨y.reverse, x.reverse, by simp⟩

theorem containsL_trimL {pat : List Char} (hne : pat ≠ [])
    (hws : ∀ c ∈ pat, isWs c = false) {l : List Char} (h : containsL l pat = true) :
    containsL (trimL l) pat = true := by
  have h1 := containsL_dropWhile_isWs hne hws l h
  have h2 := containsL_reverse h1
  have hne' : pat.reverse ≠ [] := by simpa using hne
  have hws' : ∀ c ∈ pat.reverse, isWs c = false := fun c hc =>
    hws c (List.mem_reverse.mp hc)
  have h3 := containsL_dropWhile_isWs hne' hws' _ h2
  have h4 := containsL_reverse h3
  rw [List.reverse_reverse] at h4
  exact h4

theorem trimL_sandwich (l : List Char) : ∃ w1 w2, l = w1 ++ (trimL l ++ w2) := by
  refine ⟨l.takeWhile isWs, ((dropWs l).reverse.takeWhile isWs).reverse, ?_⟩
  conv_lhs => rw [← List.takeWhile_append_dropWhile (p := isWs) (l := l)]
  congr 1
  show dropWs l = trimL l ++ ((dropWs l).reverse.takeWhile isWs).reverse
  have hsplit : (dropWs l).reverse
      = ((dropWs l).reverse.takeWhile isWs) ++ ((dropWs l).reverse.dropWhile isWs) :=
    (List.takeWhile_append_dropWhile _ _).symm
  calc dropWs l = (dropWs l).reverse.reverse := by rw [List.reverse_reverse]
    _ = (((dropWs l).reverse.takeWhile isWs) ++ ((dropWs l).reverse.dropWhile isWs)).reverse := by
        rw [← hsplit]
    _ = ((dropWs l).reverse.dropWhile isWs).reverse
        ++ ((dropWs l).reverse.takeWhile isWs).reverse := by rw [List.reverse_append]
    _ = trimL l ++ ((dropWs l).reverse.takeWhile isWs).reverse := rfl

theorem containsL_of_trimL {l pat : List Char} (h : containsL (trimL l) pat = true) :
    containsL l pat = true := by
  rw [containsL_iff] at h ⊢
  obtain ⟨x, y, hxy⟩ := h
  obtain ⟨w1, w2, hw⟩ := trimL_sandwich l
  refine ⟨w1 ++ x, y ++ w2, ?_⟩
  rw [hw, hxy]
  simp

theorem trimL_map_lowerChar (l : List Char) :
    trimL (l.map lowerChar) = (trimL l).map lowerChar := by
  have hcomp : (isWs ∘ lowerChar) = isWs := funext isWs_lowerChar
  have hdw : ∀ m : List Char, (m.map lowerChar).dropWhile isWs
      = (m.dropWhile isWs).map lowerChar := by
    intro m
    rw [List.dropWhile_map, hcomp]
  rw [trimL, trimL, dropWs, dropWs, hdw, ← List.map_reverse, hdw, List.map_reverse]

theorem containsStr_lower_trim {kw : String} (hne : kw.data ≠ [])
    (hws : ∀ c ∈ kw.data, isWs c = false) (p : String) :
    containsStr (toLowerStr (trimStr p)) kw = containsStr (toLowerStr p) kw := by
  show containsL ((trimL p.data).map lowerChar) kw.data
      = containsL (p.data.map lowerChar) kw.data
  rw [← trimL_map_lowerChar]
  cases hcase : containsL (p.data.map lowerChar) kw.data
  · cases h2 : containsL (trimL (p.data.map lowerChar)) kw.data
    · rfl
    · rw [containsL_of_trimL h2] at hcase
      exact absurd hcase (by simp)
  · exact containsL_trimL hne hws hcase

theorem hasSecurityKeyword_trim (p : String) :
    hasSecurityKeyword (toLowerStr (trimStr p)) = hasSecurityKeyword (toLowerStr p) := by
  rw [hasSecurityKeyword, hasSecurityKeyword,
    containsStr_lower_trim (by decide) (by decide),
    containsStr_lower_trim (by decide) (by decide),
    containsStr_lower_trim (by decide) (by decide)]

/-- C3 (amended): a prompt whose lowercase form contains one of the security
keywords always yields the single `CybersecurityAgent` triage task — whatever
the supplied plan text, fact store, or LLM flag — and the task's payload
carries the TRIMMED prompt (not necessarily the original, which is where the
original claim fails). -/
theorem claim_C3_amended (rules : List PAGIRule) (openOk : Bool) (st : StoreState)
    (disableLLM : Bool) (prompt llm : String)
    (h : hasSecurityKeyword (toLowerStr prompt) = true) :
    general_reasoning rules openOk st disableLLM prompt llm
      = Except.ok [securityTask (trimStr prompt)] := by
  rw [general_reasoning, if_pos h, general_reasoning_fallback,
    if_pos (by rw [hasSecurityKeyword_trim]; exact h)]

theorem claim_C3_counterexample :
    general_reasoning default_rules true ⟨[], 0⟩ false " CrowdStrike" "supplied plan"
      = Except.ok [securityTask "CrowdStrike"]
  ∧ containsStr (securityTask "CrowdStrike").input_data " CrowdStrike" = false
  ∧ (securityTask "CrowdStrike").agent_type = "CybersecurityAgent" := by
  refine ⟨?_, by decide, rfl⟩
  exact claim_C3_amended default_rules true ⟨[], 0⟩ false " CrowdStrike" "supplied plan"
    (by decide)

theorem claim_C3_amended_witness :
    hasSecurityKeyword (toLowerStr "please check CrowdStrike alerts") = true
  ∧ general_reasoning default_rules true ⟨[], 5⟩ true "please check CrowdStrike alerts" "[]"
      = Except.ok [securityTask (trimStr "please check CrowdStrike alerts")] :=
  ⟨by decide,
   claim_C3_amended default_rules true ⟨[], 5⟩ true "please check CrowdStrike alerts" "[]"
     (by decide)⟩

/-! ### The deterministic fallback tier on an empty store -/

theorem resolve_empty_store (rules : List PAGIRule) (openOk : Bool) (n : Nat) :
    resolve_symbolic_directives rules openOk ⟨[], n⟩ = [] := by
  cases openOk <;> rfl

theorem latest_reflection_empty_store (openOk : Bool) (n : Nat) (a : String) :
    latest_reflection_for_agent openOk ⟨[], n⟩ a = none := by
  cases openOk <;> rfl

/-- C6: in the deterministic fallback tier (empty supplied-plan text) with an
empty fact store, the canonical example prompt (after trimming) yields
exactly the two-task plan `SearchAgent` then `CalendarAgent`, and any
non-security prompt that does not match the canonical example fails with the
`NoPlanMatched` error. -/
theorem claim_C6 (rules : List PAGIRule) (openOk : Bool) (nextId : Nat)
    (disableLLM : Bool) (prompt llm : String) (hllm : trimStr llm = "") :
    (trimStr prompt = examplePrompt →
      general_reasoning rules openOk ⟨[], nextId⟩ disableLLM prompt llm
        = Except.ok [searchBaseTask, calendarBaseTask]) ∧
    (hasSecurityKeyword (toLowerStr prompt) = false → trimStr prompt ≠ examplePrompt →
      general_reasoning rules openOk ⟨[], nextId⟩ disableLLM prompt llm
        = Except.error noPlanMatchedMsg) := by
  have hllmcond : (decide (trimStr llm = "") || disableLLM) = true := by
    rw [hllm]
    simp
  constructor
  · intro hp
    have hsec : hasSecurityKeyword (toLowerStr prompt) = false := by
      rw [← hasSecurityKeyword_trim, hp]
      decide
    rw [general_reasoning, if_neg (by simp [hsec]), if_pos hllmcond,
      general_reasoning_fallback, if_neg (by simp [hasSecurityKeyword_trim, hsec]),
      if_pos hp, resolve_empty_store, if_neg (by simp),
      latest_reflection_empty_store]
    rfl
  · intro hsec hne
    rw [general_reasoning, if_neg (by simp [hsec]), if_pos hllmcond,
      general_reasoning_fallback, if_neg (by simp [hasSecurityKeyword_trim, hsec]),
      if_neg hne]

theorem claim_C6_witness :
    trimStr " " = ""
  ∧ trimStr examplePrompt = examplePrompt
  ∧ general_reasoning default_rules true ⟨[], 0⟩ false examplePrompt " "
      = Except.ok [searchBaseTask, calendarBaseTask]
  ∧ hasSecurityKeyword (toLowerStr "hello") = false
  ∧ general_reasoning default_rules true ⟨[], 0⟩ false "hello" " "
      = Except.error noPlanMatchedMsg :=
  ⟨by decide, by decide,
   (claim_C6 default_rules true 0 false examplePrompt " " (by decide)).1 (by decide),
   by decide,
   (claim_C6 default_rules true 0 false "hello" " " (by decide)).2 (by decide) (by decide)⟩

/-- C8: in the fallback tier with the canonical prompt and no applicable rule
directive, the most recent `SearchAgent` reflection whose directive mentions
splitting or concurrency yields the expanded four-task plan (three
`SearchAgent` subtasks carrying the directive text, then the original
`CalendarAgent` task); otherwise — keyword-free latest reflection or no
reflection at all — the unmodified two-task base plan is returned. -/
theorem claim_C8 (rules : List PAGIRule) (st : StoreState) (disableLLM : Bool)
    (llm : String) (hllm : trimStr llm = "")
    (hdir : resolve_symbolic_directives rules true st = []) :
    (∀ r : ReflectionFact, latest_reflection_for_agent true st "SearchAgent" = some r →
      (containsStr (toLowerStr r.new_directive) "split"
        || containsStr (toLowerStr r.new_directive) "concurr") = true →
      general_reasoning rules true st disableLLM examplePrompt llm
        = Except.ok (reflectionPlan r.new_directive)) ∧
    (∀ r : ReflectionFact, latest_reflection_for_agent true st "SearchAgent" = some r →
      (containsStr (toLowerStr r.new_directive) "split"
        || containsStr (toLowerStr r.new_directive) "concurr") = false →
      general_reasoning rules true st disableLLM examplePrompt llm
        = Except.ok basePlan) ∧
    (latest_reflection_for_agent true st "SearchAgent" = none →
      general_reasoning rules true st disableLLM examplePrompt llm
        = Except.ok basePlan) ∧
    (∀ d : String, (reflectionPlan d).map (·.agent_type)
      = ["SearchAgent", "SearchAgent", "SearchAgent", "CalendarAgent"]) := by
  have hcommon : general_reasoning rules true st disableLLM examplePrompt llm
      = match latest_reflection_for_agent true st "SearchAgent" with
        | some reflection => reflectionBranch reflection
        | none => Except.ok basePlan := by
    rw [general_reasoning, if_neg (by decide), if_pos (by rw [hllm]; simp),
      general_reasoning_fallback, if_neg (by decide), if_pos (by decide), hdir,
      if_neg (by simp)]
  refine ⟨fun r hr hkw => ?_, fun r hr hkw => ?_, fun hnone => ?_, fun d => rfl⟩
  · rw [hcommon, hr]
    show reflectionBranch r = _
    rw [reflectionBranch, if_pos hkw]
  · rw [hcommon, hr]
    show reflectionBranch r = _
    rw [reflectionBranch, if_neg (by simp [hkw])]
  · rw [hcommon, hnone]

/-- The concrete store holding one `SearchAgent` reflection whose directive
mentions splitting (serialized exactly as the repository does). -/
def reflStoreC8 : StoreState :=
  (record_fact_unchecked SledOps.allOk ⟨[], 0⟩
    ⟨"reflective", 7, "ReflectionFact",
      (mkObj [("target_agent", Json.str "SearchAgent"), ("critique", Json.str "c"),
        ("new_directive", Json.str "split the work concurrently")]).print⟩).1

theorem claim_C8_witness :
    trimStr "" = ""
  ∧ resolve_symbolic_directives default_rules true reflStoreC8 = []
  ∧ latest_reflection_for_agent true reflStoreC8 "SearchAgent"
      = some ⟨"SearchAgent", "c", "split the work concurrently"⟩
  ∧ general_reasoning default_rules true reflStoreC8 false examplePrompt ""
      = Except.ok (reflectionPlan "split the work concurrently") :=
  ⟨rfl, by decide, by decide,
   (claim_C8 default_rules reflStoreC8 false "" rfl (by decide)).1
     ⟨"SearchAgent", "c", "split the work concurrently"⟩ (by decide) (by decide)⟩

/-! ### The fact store after a sequence of writes (claim C1) -/

/-- Well-formedness of one stored entry relative to the id counter: its key
is the rendered `{:020}_{id}` key of its fact for some already-consumed id. -/
def EntryWF (nextId : Nat) (e : List Char × AgentFact) : Prop :=
  ∃ id, id < nextId ∧ e.2.timestamp < 2 ^ 64 ∧ e.1 = makeKey e.2.timestamp id

/-- Invariant of the store: all entries well-formed, keys strictly ascending
in byte order (sled iteration order). -/
def StoreWF (st : StoreState) : Prop :=
  (∀ e ∈ st.entries, EntryWF st.nextId e) ∧
  st.entries.Pairwise (fun a b => lexLt a.1 b.1 = true)

theorem mem_insertEntry {e : List Char × AgentFact} {k : List Char} {v : AgentFact} :
    ∀ {l : List (List Char × AgentFact)}, e ∈ insertEntry k v l → e = (k, v) ∨ e ∈ l := by
  intro l
  induction l with
  | nil =>
    intro h
    simp [insertEntry] at h
    exact Or.inl h
  | cons e' rest ih =>
    obtain ⟨k', v'⟩ := e'
    intro h
    rw [insertEntry] at h
    by_cases h1 : lexLt k k' = true
    · rw [if_pos h1] at h
      rcases List.mem_cons.mp h with h | h
      · exact Or.inl h
      · exact Or.inr h
    · rw [if_neg h1] at h
      by_cases h2 : k = k'
      · rw [if_pos h2] at h
        rcases List.mem_cons.mp h with h | h
        · exact Or.inl h
        · exact Or.inr (List.mem_cons_of_mem _ h)
      · rw [if_neg h2] at h
        rcases List.mem_cons.mp h with h | h
        · exact Or.inr (h ▸ List.mem_cons_self _ _)
        · rcases ih h with h | h
          · exact Or.inl h
          · exact Or.inr (List.mem_cons_of_mem _ h)

theorem insertEntry_perm {k : List Char} {v : AgentFact} :
    ∀ {l : List (List Char × AgentFact)}, k ∉ l.map Prod.fst →
      (insertEntry k v l).Perm ((k, v) :: l) := by
  intro l
  induction l with
  | nil => intro _; exact List.Perm.refl _
  | cons e' rest ih =>
    obtain ⟨k', v'⟩ := e'
    intro hk
    have hk' : k ≠ k' := by
      intro hc
      exact hk (by rw [hc]; exact List.mem_cons_self _ _)
    have hkrest : k ∉ rest.map Prod.fst := by
      intro hc
      exact hk (List.mem_cons_of_mem _ hc)
    rw [insertEntry]
    by_cases h1 : lexLt k k' = true
    · rw [if_pos h1]
    · rw [if_neg h1, if_neg hk']
      exact ((ih hkrest).cons (k', v')).trans (List.Perm.swap _ _ _)

theorem insertEntry_pairwise {k : List Char} {v : AgentFact} :
    ∀ {l : List (List Char × AgentFact)},
      l.Pairwise (fun a b => lexLt a.1 b.1 = true) →
      (insertEntry k v l).Pairwise (fun a b => lexLt a.1 b.1 = true) := by
  intro l
  induction l with
  | nil => intro _; simp [insertEntry]
  | cons e' rest ih =>
    obtain ⟨k', v'⟩ := e'
    intro hp
    rw [List.pairwise_cons] at hp
    obtain ⟨hhead, hrest⟩ := hp
    rw [insertEntry]
    by_cases h1 : lexLt k k' = true
    · rw [if_pos h1]
      rw [List.pairwise_cons]
      refine ⟨?_, List.pairwise_cons.mpr ⟨hhead, hrest⟩⟩
      intro e he
      rcases List.mem_cons.mp he with rfl | he
      · exact h1
      · exact lexLt_trans h1 (hhead e he)
    · rw [if_neg h1]
      by_cases h2 : k = k'
      · rw [if_pos h2]
        rw [List.pairwise_cons]
        exact ⟨fun e he => h2 ▸ hhead e he, hrest⟩
      · rw [if_neg h2]
        have h3 : lexLt k' k = true := by
          rcases lexLt_trichotomy k k' with h | h | h
          · exact absurd h h1
          · exact absurd h h2
          · exact h
        rw [List.pairwise_cons]
        refine ⟨?_, ih hrest⟩
        intro e he
        rcases mem_insertEntry he with rfl | he
        · exact h3
        · exact hhead e he

/-- `record_fact` with `WriteFacts` and no sled failure is exactly one key
insertion plus an id-counter bump. -/
theorem record_fact_write_step {identity : AgentIdentity}
    (hw : AuthScope.WriteFacts ∈ identity.scopes) (st : StoreState) (f : AgentFact) :
    record_fact SledOps.allOk identity st f
      = (⟨insertEntry (makeKey f.timestamp st.nextId) f st.entries, st.nextId + 1⟩,
         Except.ok ()) := by
  simp [record_fact, can_access, hw, record_fact_unchecked, SledOps.allOk, Except.mapError]

theorem StoreWF_insert {st : StoreState} (hWF : StoreWF st) {f : AgentFact}
    (hts : f.timestamp < 2 ^ 64) :
    StoreWF ⟨insertEntry (makeKey f.timestamp st.nextId) f st.entries, st.nextId + 1⟩ := by
  constructor
  · intro e he
    rcases mem_insertEntry he with rfl | he'
    · exact ⟨st.nextId, Nat.lt_succ_self _, hts, rfl⟩
    · obtain ⟨id, hid, h64, hkey⟩ := hWF.1 e he'
      exact ⟨id, Nat.lt_succ_of_lt hid, h64, hkey⟩
  · exact insertEntry_pairwise hWF.2

theorem makeKey_not_mem {st : StoreState} (hWF : StoreWF st) {f : AgentFact}
    (hts : f.timestamp < 2 ^ 64) :
    makeKey f.timestamp st.nextId ∉ st.entries.map Prod.fst := by
  intro hc
  obtain ⟨e, he, hk⟩ := List.mem_map.mp hc
  obtain ⟨id, hid, h64, hkey⟩ := hWF.1 e he
  rw [hkey] at hk
  have h1 : f.timestamp < 10 ^ 20 := lt_of_lt_of_le hts (by norm_num)
  have h2 : e.2.timestamp < 10 ^ 20 := lt_of_lt_of_le h64 (by norm_num)
  have := makeKey_inj_id h2 h1 hk
  omega

theorem retrieve_zero_eq (st : StoreState) :
    retrieve_facts_by_timestamp_unchecked true st 0
      = st.entries.filterMap (fun e =>
          match parseKeyTs e.1 with
          | none => none
          | some ts => if ts < 0 then none else some e.2) := rfl

theorem filterMap_retrieve_eq {l : List (List Char × AgentFact)}
    (h : ∀ e ∈ l, ∃ id, e.2.timestamp < 2 ^ 64 ∧ e.1 = makeKey e.2.timestamp id) :
    l.filterMap (fun e =>
      match parseKeyTs e.1 with
      | none => none
      | some ts => if ts < 0 then none else some e.2) = l.map Prod.snd := by
  induction l with
  | nil => rfl
  | cons e rest ih =>
    obtain ⟨id, h64, hkey⟩ := h e (List.mem_cons_self _ _)
    have hfe : (match parseKeyTs e.1 with
        | none => none
        | some ts => if ts < 0 then none else some e.2) = some e.2 := by
      rw [hkey, parseKeyTs_makeKey id h64]
      simp
    rw [List.filterMap_cons, hfe]
    show e.2 :: _ = _
    rw [List.map_cons, ih fun e' he' => h e' (List.mem_cons_of_mem _ he')]

theorem retrieve_zero_map_snd {st : StoreState}
    (hWF : ∀ e ∈ st.entries, EntryWF st.nextId e) :
    retrieve_facts_by_timestamp_unchecked true st 0 = st.entries.map Prod.snd := by
  rw [retrieve_zero_eq]
  exact filterMap_retrieve_eq fun e he =>
    (hWF e he).elim fun id hid => ⟨id, hid.2.1, hid.2.2⟩

theorem pairwise_ts_of_StoreWF {st : StoreState} (hWF : StoreWF st) :
    (st.entries.map Prod.snd).Pairwise (fun a b => a.timestamp ≤ b.timestamp) := by
  rw [List.pairwise_map]
  apply List.Pairwise.imp_of_mem ?_ hWF.2
  intro a b ha hb hlt
  obtain ⟨id1, -, h641, hk1⟩ := hWF.1 a ha
  obtain ⟨id2, -, h642, hk2⟩ := hWF.1 b hb
  by_contra hts
  push_neg at hts
  have h20 : a.2.timestamp < 10 ^ 20 := lt_of_lt_of_le h641 (by norm_num)
  have hba := makeKey_lexLt id2 id1 hts h20
  rw [← hk1, ← hk2] at hba
  rw [lexLt_asymm hlt] at hba
  exact absurd hba (by simp)

/-- All the facts of a run, written in order through `record_fact` with a
fully-authorized identity, starting from a fresh store. -/
def recordAll (identity : AgentIdentity) (facts : List AgentFact) : StoreState :=
  facts.foldl (fun s f => (record_fact SledOps.allOk identity s f).1) ⟨[], 0⟩

theorem recordAll_go {identity : AgentIdentity}
    (hw : AuthScope.WriteFacts ∈ identity.scopes) :
    ∀ (facts : List AgentFact) (st : StoreState), StoreWF st →
      (∀ f ∈ facts, f.timestamp < 2 ^ 64) →
      StoreWF (facts.foldl (fun s f => (record_fact SledOps.allOk identity s f).1) st) ∧
      ((facts.foldl (fun s f =>
          (record_fact SledOps.allOk identity s f).1) st).entries.map Prod.snd).Perm
        (st.entries.map Prod.snd ++ facts) := by
  intro facts
  induction facts with
  | nil =>
    intro st hWF _
    refine ⟨hWF, ?_⟩
    simp
  | cons f fs ih =>
    intro st hWF hts
    rw [List.foldl_cons, record_fact_write_step hw st f]
    have hWF' : StoreWF ⟨insertEntry (makeKey f.timestamp st.nextId) f st.entries,
        st.nextId + 1⟩ :=
      StoreWF_insert hWF (hts f (List.mem_cons_self _ _))
    obtain ⟨hWF2, hperm⟩ := ih _ hWF' fun g hg => hts g (List.mem_cons_of_mem _ hg)
    refine ⟨hWF2, ?_⟩
    have hmem := makeKey_not_mem hWF (hts f (List.mem_cons_self _ _))
    have hp1 : ((insertEntry (makeKey f.timestamp st.nextId) f st.entries).map
        Prod.snd).Perm (f :: st.entries.map Prod.snd) := by
      have := (insertEntry_perm (v := f) hmem).map Prod.snd
      simpa using this
    exact hperm.trans ((hp1.append_right fs).trans List.perm_middle.symm)

/-- C1 (amended): every sequence of facts written through `record_fact` from a
fresh store is returned in full by an authorized `retrieve_facts_by_timestamp`
with `start_ts = 0` (a permutation of the writes), in non-decreasing timestamp
order.  (Equal-timestamp write order is NOT preserved in general — the id
suffix of the key is not fixed-width, see the counterexample — so the amended
claim drops that part.) -/
theorem claim_C1_amended (identity : AgentIdentity)
    (hw : AuthScope.WriteFacts ∈ identity.scopes) (facts : List AgentFact)
    (hts : ∀ f ∈ facts, f.timestamp < 2 ^ 64) (reader : AgentIdentity)
    (hr : AuthScope.ReadFacts ∈ reader.scopes) :
    ∃ out : List AgentFact,
      retrieve_facts_by_timestamp true reader (recordAll identity facts) 0
        = Except.ok out ∧
      out.Perm facts ∧
      (out.map AgentFact.timestamp).Pairwise (· ≤ ·) := by
  have hbase : StoreWF ⟨[], 0⟩ := ⟨by simp, List.Pairwise.nil⟩
  obtain ⟨hWF, hperm⟩ := recordAll_go hw facts ⟨[], 0⟩ hbase hts
  unfold recordAll
  refine ⟨(facts.foldl (fun s f =>
    (record_fact SledOps.allOk identity s f).1) ⟨[], 0⟩).entries.map Prod.snd, ?_, ?_, ?_⟩
  · rw [retrieve_facts_by_timestamp]
    have : can_access reader AuthScope.ReadFacts = Except.ok () := by
      simp [can_access, hr]
    rw [this]
    rw [retrieve_zero_map_snd hWF.1]
  · simpa using hperm
  · have := pairwise_ts_of_StoreWF hWF
    rw [List.pairwise_map]
    exact this

theorem claim_C1_amended_witness :
    ∃ out : List AgentFact,
      retrieve_facts_by_timestamp true ⟨"reader", [AuthScope.ReadFacts]⟩
        (recordAll ⟨"writer", [AuthScope.WriteFacts]⟩
          [⟨"a", 5, "T", "x"⟩, ⟨"b", 3, "T", "y"⟩]) 0 = Except.ok out ∧
      out.Perm [⟨"a", 5, "T", "x"⟩, ⟨"b", 3, "T", "y"⟩] ∧
      (out.map AgentFact.timestamp).Pairwise (· ≤ ·) :=
  claim_C1_amended ⟨"writer", [AuthScope.WriteFacts]⟩ (by decide)
    [⟨"a", 5, "T", "x"⟩, ⟨"b", 3, "T", "y"⟩] (by decide)
    ⟨"reader", [AuthScope.ReadFacts]⟩ (by decide)

/-- Eleven same-timestamp facts: the eleventh write receives sled id 10,
whose key `"…5_10"` sorts BETWEEN `"…5_1"` and `"…5_2"`, so retrieval does
not preserve write order for equal timestamps. -/
def factsC1 : List AgentFact :=
  [⟨"a", 5, "T", "f0"⟩, ⟨"a", 5, "T", "f1"⟩, ⟨"a", 5, "T", "f2"⟩, ⟨"a", 5, "T", "f3"⟩,
   ⟨"a", 5, "T", "f4"⟩, ⟨"a", 5, "T", "f5"⟩, ⟨"a", 5, "T", "f6"⟩, ⟨"a", 5, "T", "f7"⟩,
   ⟨"a", 5, "T", "f8"⟩, ⟨"a", 5, "T", "f9"⟩, ⟨"a", 5, "T", "f10"⟩]

theorem claim_C1_counterexample :
    retrieve_facts_by_timestamp true ⟨"reader", [AuthScope.ReadFacts]⟩
        (recordAll ⟨"writer", [AuthScope.WriteFacts]⟩ factsC1) 0
      = Except.ok
        [⟨"a", 5, "T", "f0"⟩, ⟨"a", 5, "T", "f1"⟩, ⟨"a", 5, "T", "f10"⟩,
         ⟨"a", 5, "T", "f2"⟩, ⟨"a", 5, "T", "f3"⟩, ⟨"a", 5, "T", "f4"⟩,
         ⟨"a", 5, "T", "f5"⟩, ⟨"a", 5, "T", "f6"⟩, ⟨"a", 5, "T", "f7"⟩,
         ⟨"a", 5, "T", "f8"⟩, ⟨"a", 5, "T", "f9"⟩]
  ∧ (∀ f ∈ factsC1, f.timestamp = 5)
  ∧ retrieve_facts_by_timestamp true ⟨"reader", [AuthScope.ReadFacts]⟩
        (recordAll ⟨"writer", [AuthScope.WriteFacts]⟩ factsC1) 0
      ≠ Except.ok factsC1 := by
  refine ⟨by decide, by decide, by decide⟩

end PagiCore
